import Mathlib

/-! Verification of the last30days discovery pipeline.

This file gives a shallow embedding of the two backend modules of the
repository, scripts/lib/youtube_scrape.py and scripts/lib/brave_reddit.py,
and proves theorems about the behaviour claimed by the specification.
Python strings are modelled as Lean strings (lists of characters), Python
ints as Int or Nat, Python floats as exact rationals (plus explicit
infinity and nan markers), raised exceptions as the Except monad, and the
external network calls (scrapetube search, transcript fetching, Brave
HTTP requests) as explicit parameters holding their outcomes. -/

/-! ## Python string primitives -/

/-- Whitespace recognised by Python str.strip and str.split
(the ASCII part of the Unicode whitespace class). -/
def isWs (c : Char) : Bool :=
  c == ' ' || c == '\t' || c == '\n' || c == '\r' || c == '\x0b' || c == '\x0c'

/-- Python str.strip with no argument, on character lists. -/
def pyStripChars (l : List Char) : List Char :=
  ((l.dropWhile isWs).reverse.dropWhile isWs).reverse

/-- Python str.strip with no argument. -/
def pyStrip (s : String) : String := ⟨pyStripChars s.data⟩

/-- ASCII lowercasing of one character, as Python str.lower acts on ASCII
(code points 65 to 90 shift up by 32). -/
def lowerChar (c : Char) : Char :=
  if 65 ≤ c.toNat && c.toNat ≤ 90 then Char.ofNat (c.toNat + 32) else c

/-- Python str.lower (ASCII model). -/
def pyLower (s : String) : String := ⟨s.data.map lowerChar⟩

/-- Helper for pySplit: accumulate the current word (reversed). -/
def pySplitAux (cur : List Char) : List Char → List (List Char)
  | [] => if cur.isEmpty then [] else [cur.reverse]
  | c :: cs =>
    if isWs c then
      if cur.isEmpty then pySplitAux [] cs else cur.reverse :: pySplitAux [] cs
    else pySplitAux (c :: cur) cs

/-- Python str.split with no argument: split on whitespace runs, no empty words. -/
def pySplit (s : String) : List String := (pySplitAux [] s.data).map (fun w => ⟨w⟩)

/-- Python sep.join for sep a single space. -/
def joinSpace : List String → String
  | [] => ""
  | [w] => w
  | w :: ws => w ++ " " ++ joinSpace ws

/-- Remove the given characters from the end of a character list (Python str.rstrip). -/
def rstripChars (cs : List Char) (l : List Char) : List Char :=
  (l.reverse.dropWhile (fun c => cs.contains c)).reverse

/-- Python str.rstrip with an explicit character set. -/
def pyRstrip (s : String) (cs : List Char) : String := ⟨rstripChars cs s.data⟩

/-- Replace every non-overlapping occurrence of pat, scanning left to right,
by the empty string; fuel-driven so that it reduces definitionally.
Any fuel of at least the length of the list gives Python semantics. -/
def replaceAllAux (pat : List Char) : Nat → List Char → List Char
  | _, [] => []
  | 0, l => l
  | fuel + 1, c :: cs =>
    if pat.isPrefixOf (c :: cs) && !pat.isEmpty then
      replaceAllAux pat fuel ((c :: cs).drop pat.length)
    else c :: replaceAllAux pat fuel cs

/-- Python s.replace(pat, empty string). -/
def pyReplace (s pat : String) : String := ⟨replaceAllAux pat.data s.data.length s.data⟩

/-- Python string comparison (lexicographic on code points): a is less or equal to b. -/
def charListLe : List Char → List Char → Bool
  | [], _ => true
  | _ :: _, [] => false
  | a :: as, b :: bs => if a < b then true else if b < a then false else charListLe as bs

/-- Python string less-or-equal. -/
def pyStrLe (a b : String) : Bool := charListLe a.data b.data

/-- Python substring membership (the in operator on str): pat occurs
contiguously in the list. -/
def isSubChars (pat : List Char) : List Char → Bool
  | [] => pat.isEmpty
  | c :: cs => pat.isPrefixOf (c :: cs) || isSubChars pat cs

/-- Decimal digit test. -/
def isDig (c : Char) : Bool := 48 ≤ c.toNat && c.toNat ≤ 57

/-- Numeric value of a decimal digit character. -/
def rdDig (c : Char) : Nat := c.toNat - 48

/-- Value of a list of decimal digit characters. -/
def digitsVal (l : List Char) : Nat := l.foldl (fun n c => n * 10 + rdDig c) 0

/-! ## Python float model

Python float literals are modelled by exact fractions, an integer
numerator over a positive power-of-ten denominator; the special values
accepted by float() are kept explicit. Rounding to binary floating point
is not modelled: on the short decimal strings this pipeline handles the
truncated integer results coincide. -/

inductive PyFloat where
  | finite (n : Int) (d : Nat)
  | inf (neg : Bool)
  | nan
deriving DecidableEq

/-- Exponent part of a float literal: empty, or e followed by an optional
sign and at least one digit, with nothing after. -/
def parseExpPart : List Char → Option Int
  | [] => some 0
  | 'e' :: rest =>
    let (neg, ds) : Bool × List Char :=
      match rest with
      | '+' :: r => (false, r)
      | '-' :: r => (true, r)
      | r => (false, r)
    if ds.isEmpty || !(ds.all isDig) then none
    else some (if neg then -(digitsVal ds : Int) else (digitsVal ds : Int))
  | _ => none

/-- Fold a (possibly negative) power of ten into a fraction. -/
def applyExp (num den : Nat) (e : Int) : Nat × Nat :=
  if 0 ≤ e then (num * 10 ^ e.toNat, den) else (num, den * 10 ^ (-e).toNat)

/-- Unsigned decimal float body: digits with an optional fractional part, or
a fractional part alone, then an optional exponent. The value is the exact
fraction numerator over denominator. -/
def parseUnsignedFloat (l : List Char) : Option (Nat × Nat) :=
  let ip := l.takeWhile isDig
  let rest := l.drop ip.length
  if rest.head? == some '.' then
    let rest2 := rest.tail
    let fp := rest2.takeWhile isDig
    let rest3 := rest2.drop fp.length
    if ip.isEmpty && fp.isEmpty then none
    else
      match parseExpPart rest3 with
      | none => none
      | some e =>
        some (applyExp (digitsVal ip * 10 ^ fp.length + digitsVal fp) (10 ^ fp.length) e)
  else
    if ip.isEmpty then none
    else
      match parseExpPart rest with
      | none => none
      | some e => some (applyExp (digitsVal ip) 1 e)

/-- The signless stage of float(): a special value (inf, infinity, nan) or
a decimal literal, with the sign applied to the numerator. -/
def pyFloatBody (neg : Bool) (body : List Char) : Option PyFloat :=
  if body = "inf".data ∨ body = "infinity".data then some (.inf neg)
  else if body = "nan".data then some .nan
  else
    match parseUnsignedFloat body with
    | some nd => some (.finite (if neg then -(nd.1 : Int) else (nd.1 : Int)) nd.2)
    | none => none

/-- Python float() on a string: strip whitespace, optional sign, then either
a special value (inf, infinity, nan, case-insensitive) or a decimal literal.
Returns none when the call raises ValueError. -/
def pyFloat (s : String) : Option PyFloat :=
  let l := pyStripChars (pyLower s).data
  pyFloatBody (l.head? == some '-')
    (if l.head? == some '+' || l.head? == some '-' then l.tail else l)

/-- Python int() applied to a finite float value n over d: truncation toward
zero, which is exactly Int.tdiv on the exact fraction. -/
def truncFrac (n : Int) (d : Nat) : Int := Int.tdiv n d

/-! ## View count parsing (youtube_scrape._parse_view_count) -/

/-- Trailing K, M or B multiplier, checked in the order of the source dict. -/
def suffixMult (t : String) : Option (String × Nat) :=
  if t.data.getLast? == some 'k' then some (⟨t.data.dropLast⟩, 1000)
  else if t.data.getLast? == some 'm' then some (⟨t.data.dropLast⟩, 1000000)
  else if t.data.getLast? == some 'b' then some (⟨t.data.dropLast⟩, 1000000000)
  else none

/-- int(float(text) times mult) with the exception behaviour of the source:
a finite value truncates, infinity raises OverflowError (uncaught, the
handlers cover only ValueError and TypeError), nan raises the caught
ValueError giving 0, and an unparseable text gives the caught 0. -/
def viewCountOfFloat (f : Option PyFloat) (mult : Nat) : Except Unit Int :=
  match f with
  | some (.finite n d) => .ok (truncFrac (n * mult) d)
  | some (.inf _) => .error ()
  | some .nan => .ok 0
  | none => .ok 0

/-- Model of _parse_view_count. -/
def parse_view_count (text : String) : Except Unit Int :=
  if text = "" then .ok 0
  else
    let t := pyStrip (pyLower text)
    if isSubChars ("no view".data) t.data then .ok 0
    else
      let t2 := pyStrip (pyReplace (pyReplace (pyReplace t "views") "view") ",")
      match suffixMult t2 with
      | some p => viewCountOfFloat (pyFloat p.1) p.2
      | none => viewCountOfFloat (pyFloat t2) 1

/-! ## Proleptic Gregorian calendar

Python datetime values are modelled by their ordinal day number
(date.toordinal: day 1 is year 1, January 1). The minimum representable
datetime is ordinal 1 and the maximum year is 9999, exactly as in Python;
subtracting a timedelta that lands below ordinal 1 raises OverflowError. -/

def isLeap (y : Nat) : Bool := (y % 4 == 0 && y % 100 != 0) || (y % 400 == 0)

def daysInYear (y : Nat) : Nat := if isLeap y then 366 else 365

def monthLengths (y : Nat) : List Nat :=
  [31, if isLeap y then 29 else 28, 31, 30, 31, 30, 31, 31, 30, 31, 30, 31]

def daysInMonth (y m : Nat) : Nat := (monthLengths y).getD (m - 1) 0

/-- Find the year containing the given ordinal day; the second component is
the (1-based) day within that year. Fuel-driven: one year is consumed per
step, so any fuel of at least the day count is enough. -/
def findYear : Nat → Nat → Nat → Nat × Nat
  | 0, y, n => (y, n)
  | fuel + 1, y, n => if n ≤ daysInYear y then (y, n) else findYear fuel (y + 1) (n - daysInYear y)

/-- Walk the month lengths to locate a day-of-year. -/
def monthDayAux : List Nat → Nat → Nat → Nat × Nat
  | [], m, d => (m, d)
  | len :: rest, m, d => if d ≤ len then (m, d) else monthDayAux rest (m + 1) (d - len)

/-- Year, month and day of an ordinal day number (1 is 0001-01-01). -/
def ordToYMD (o : Nat) : Nat × Nat × Nat :=
  let yd := findYear o 1 o
  let md := monthDayAux (monthLengths yd.1) 1 yd.2
  (yd.1, md.1, md.2)

def digitChar (k : Nat) : Char := Char.ofNat (48 + k)

def pad2 (n : Nat) : List Char := [digitChar (n / 10 % 10), digitChar (n % 10)]

def pad4 (n : Nat) : List Char :=
  [digitChar (n / 1000 % 10), digitChar (n / 100 % 10), digitChar (n / 10 % 10),
    digitChar (n % 10)]

/-- Unpadded decimal digits of a number, most significant first. Fuel-driven
(one digit is produced per step, so fuel at least the number itself is
always enough). -/
def natDigitsAux : Nat → Nat → List Char
  | 0, _ => []
  | fuel + 1, n =>
    if n < 10 then [digitChar n]
    else natDigitsAux fuel (n / 10) ++ [digitChar (n % 10)]

/-- The year field written by strftime %Y as CPython renders it on glibc:
plain decimal with no zero padding, so years below 1000 yield fewer than
four digits (datetime(927, 7, 6).strftime yields 927-07-06). -/
def yearChars (y : Nat) : List Char := natDigitsAux (y + 1) y

/-- CPython strftime with format %Y-%m-%d on glibc: month and day are
zero-padded to two digits, the year is unpadded decimal. -/
def formatDate (y m d : Nat) : String :=
  ⟨yearChars y ++ ('-' :: pad2 m) ++ ('-' :: pad2 d)⟩

/-- Format an ordinal day number with strftime %Y-%m-%d. -/
def formatOrdinal (o : Nat) : String :=
  let t := ordToYMD o
  formatDate t.1 t.2.1 t.2.2

/-- A string matches YYYY-MM-DD and names a valid proleptic Gregorian
calendar date. -/
def isValidDateString (s : String) : Bool :=
  match s.data with
  | [a, b, c, d, e, f, g, h, i, j] =>
    isDig a && isDig b && isDig c && isDig d && e == '-' && isDig f && isDig g &&
      h == '-' && isDig i && isDig j &&
      (let y := ((rdDig a * 10 + rdDig b) * 10 + rdDig c) * 10 + rdDig d
       let mo := rdDig f * 10 + rdDig g
       let dd := rdDig i * 10 + rdDig j
       decide (1 ≤ y) && decide (1 ≤ mo) && decide (mo ≤ 12) && decide (1 ≤ dd) &&
         decide (dd ≤ daysInMonth y mo))
  | _ => false

/-- Total days in the years y, y+1, ..., y+k-1. The ordinal of the last day
of year 9999 (the Python datetime maximum) is sumDaysFrom 1 9999. -/
def sumDaysFrom (y : Nat) : Nat → Nat
  | 0 => 0
  | k + 1 => daysInYear y + sumDaysFrom (y + 1) k

/-! ## Relative date parsing (youtube_scrape._parse_relative_date) -/

def unitNames : List String := ["second", "minute", "hour", "day", "week", "month", "year"]

/-- Match one of the unit words as a literal at the head of the input. -/
def findUnit : List String → List Char → Option (String × List Char)
  | [], _ => none
  | u :: us, l => if u.data.isPrefixOf l then some (u, l.drop u.data.length) else findUnit us l

/-- The body of the relative-date regular expression: digits, whitespace, a
unit word, an optional trailing s, whitespace, then the literal ago. Like
re.match, anything may follow. -/
def parseRelCore (l : List Char) : Option (Nat × String) :=
  let ds := l.takeWhile isDig
  if ds.isEmpty then none
  else
    let r1 := l.drop ds.length
    let ws1 := r1.takeWhile isWs
    if ws1.isEmpty then none
    else
      let r2 := r1.drop ws1.length
      match findUnit unitNames r2 with
      | none => none
      | some ur =>
        let r4 := match ur.2 with
          | 's' :: rest => rest
          | r3 => r3
        let ws2 := r4.takeWhile isWs
        if ws2.isEmpty then none
        else if ("ago".data).isPrefixOf (r4.drop ws2.length) then some (digitsVal ds, ur.1)
        else none

/-- The two anchored patterns tried by the source: the plain form, then the
form with a streamed prefix word. -/
def parseRel (l : List Char) : Option (Nat × String) :=
  match parseRelCore l with
  | some r => some r
  | none =>
    if ("streamed".data).isPrefixOf l then
      let r := l.drop 8
      let ws := r.takeWhile isWs
      if ws.isEmpty then none else parseRelCore (r.drop ws.length)
    else none

def dayMult : String → Nat
  | "day" => 1
  | "week" => 7
  | "month" => 30
  | "year" => 365
  | _ => 0

/-- Model of _parse_relative_date. The now argument is the ordinal day of
datetime.now(). The error case is the uncaught OverflowError raised when the
subtraction falls before the minimum representable date. -/
def parse_relative_date (text : String) (now : Nat) : Except Unit (Option String) :=
  if text = "" then .ok none
  else
    let t := pyStrip (pyLower text)
    match parseRel t.data with
    | none => .ok none
    | some au =>
      if au.2 = "second" ∨ au.2 = "minute" ∨ au.2 = "hour" then
        .ok (some (formatOrdinal now))
      else
        let days := au.1 * dayMult au.2
        if days < now then .ok (some (formatOrdinal (now - days))) else .error ()

/-! ## Core subject extraction (youtube_scrape._extract_core_subject) -/

def ytPhrases : List String :=
  ["what are the best", "what is the best", "what are the latest",
   "what are people saying about", "what do people think about",
   "how do i use", "how to use", "how to",
   "what are", "what is", "tips for", "best practices for"]

/-- The sequential multi-word phrase stripping loop: each listed phrase is
tried in order against the current text. -/
def stripPhrases : List String → String → String
  | [], t => t
  | p :: ps, t =>
    stripPhrases ps
      (if (p ++ " ").data.isPrefixOf t.data then pyStrip ⟨t.data.drop p.data.length⟩ else t)

def ytNoise : List String :=
  ["best", "top", "good", "great", "awesome", "killer",
   "latest", "new", "news", "update", "updates",
   "trending", "hottest", "popular", "viral",
   "practices", "features",
   "recommendations", "advice",
   "prompt", "prompts", "prompting",
   "methods", "strategies", "approaches"]

/-- The lowercased, stripped, phrase-stripped working text. -/
def ytText (topic : String) : String := stripPhrases ytPhrases (pyStrip (pyLower topic))

/-- The tokens of the working text that survive the noise-word filter. -/
def ytFiltered (topic : String) : List String :=
  (pySplit (ytText topic)).filter (fun w => !ytNoise.contains w)

/-- Model of _extract_core_subject in youtube_scrape.py. -/
def extract_core_yt (topic : String) : String :=
  pyRstrip
    (if (ytFiltered topic).isEmpty then ytText topic else joinSpace (ytFiltered topic))
    ['?', '!', '.']

/-! ## YouTube search (youtube_scrape.search_youtube)

The scrapetube network call is a parameter: either the list of raw video
records it returned, or the message of the exception it raised. A raw
record carries the already-extracted text fields (the nested dict walks of
safe title, safe channel, view count text and published time text are
collapsed into the record). -/

/-- The fixed video-backend relevance constant 0.7, written in normal form
so that it needs no kernel arithmetic. -/
def relevanceVideo : ℚ := ⟨7, 10, by decide, by decide⟩

/-- The fixed search-backend relevance constant 0.65, written in normal
form so that it needs no kernel arithmetic. -/
def relevanceSearch : ℚ := ⟨13, 20, by decide, by decide⟩

structure RawVideo where
  videoId : String
  titleText : String
  channelText : String
  viewCountText : String
  publishedTimeText : String
  durationText : String
deriving DecidableEq

structure YTItem where
  video_id : String
  title : String
  url : String
  channel_name : String
  date : Option String
  views : Int
  likes : Int
  comments : Int
  duration : String
  relevance : ℚ
  why_relevant : String
deriving DecidableEq

/-- Build one item of the search_youtube items loop; the view count text is
parsed first and the published time text second, as in the source, and an
exception from either parse propagates. -/
def mkItem (now : Nat) (core : String) (v : RawVideo) : Except Unit YTItem :=
  match parse_view_count v.viewCountText with
  | .error u => .error u
  | .ok views =>
    match parse_relative_date v.publishedTimeText now with
    | .error u => .error u
    | .ok d =>
      .ok { video_id := v.videoId, title := v.titleText,
            url := "https://www.youtube.com/watch?v=" ++ v.videoId,
            channel_name := v.channelText, date := d, views := views,
            likes := 0, comments := 0, duration := v.durationText,
            relevance := relevanceVideo,
            why_relevant := "YouTube video about " ++ core }

/-- The items loop: records with an empty videoId are skipped. -/
def mkItems (now : Nat) (core : String) : List RawVideo → Except Unit (List YTItem)
  | [] => .ok []
  | v :: vs =>
    if v.videoId = "" then mkItems now core vs
    else
      match mkItem now core v with
      | .error u => .error u
      | .ok it =>
        match mkItems now core vs with
        | .error u => .error u
        | .ok rest => .ok (it :: rest)

/-- Stable insertion of an item into a list sorted by views descending: the
inserted element goes in front of the first element whose views do not
exceed its own. -/
def insertViews (x : YTItem) : List YTItem → List YTItem
  | [] => [x]
  | y :: ys => if x.views < y.views then y :: insertViews x ys else x :: y :: ys

/-- The stable sort by view count descending performed by list.sort with
reverse set (Python sorts are stable, so ties keep discovery order). -/
def sortViews : List YTItem → List YTItem
  | [] => []
  | x :: xs => insertViews x (sortViews xs)

/-- The date test of the recency filter: Python truthiness of the date field
(absent and empty both fail) plus the string comparison with from_date. -/
def dateOkB (fd : String) (it : YTItem) : Bool :=
  match it.date with
  | none => false
  | some d => !(d == "") && pyStrLe fd d

/-- The soft recency filter and final ordering of search_youtube: keep the
recent subset only when it has at least 3 elements, then sort by views. -/
def recency_filter (items : List YTItem) (fd : String) : List YTItem :=
  let recent := items.filter (dateOkB fd)
  sortViews (if 3 ≤ recent.length then recent else items)

structure YTResult where
  items : List YTItem
  error : Option String
deriving DecidableEq

/-- Model of search_youtube. The first argument tells whether the scrapetube
module is importable; the second is the outcome of the scrapetube search call.
The outer Except is an exception escaping the function (possible only from
the uncaught paths of the items loop). -/
def search_youtube (ok : Bool) (outcome : Except String (List RawVideo)) (now : Nat)
    (topic : String) (from_date : String) (_to_date : String) (_depth : String) :
    Except Unit YTResult :=
  if !ok then .ok ⟨[], some "scrapetube not installed"⟩
  else
    match outcome with
    | .error e => .ok ⟨[], some ("scrapetube error: " ++ e)⟩
    | .ok videos =>
      match mkItems now (extract_core_yt topic) videos with
      | .error u => .error u
      | .ok items => .ok ⟨recency_filter items from_date, none⟩

/-! ## Transcript fetching (youtube_scrape.fetch_transcripts_parallel)

The per-video fetch_transcript call is an oracle parameter: it yields the
transcript (some text), none when no transcript is available, or an
exception. The trace of external events (one fetch per video, one pacing
sleep of one second between consecutive fetches) is returned alongside the
results dict. -/

inductive FEvent where
  | fetchEv (vid : String)
  | sleepEv
deriving DecidableEq

def isFetchEv : FEvent → Bool
  | .fetchEv _ => true
  | .sleepEv => false

/-- The caught result of one fetch: the loop stores none when
fetch_transcript raises. -/
def exceptVal (f : String → Except Unit (Option String)) (v : String) : Option String :=
  match f v with
  | .ok t => t
  | .error _ => none

/-- Model of fetch_transcripts_parallel: strictly serial; sleeps one second
after every fetch except the last. The dict is an association list looked
up by key; repeated ids re-run the fetch and store the same value, so the
first binding is observationally the Python dict entry. -/
def fetch_transcripts_parallel (f : String → Except Unit (Option String)) :
    List String → List (String × Option String) × List FEvent
  | [] => ([], [])
  | [v] => ([(v, exceptVal f v)], [.fetchEv v])
  | v :: w :: vs =>
    let r := fetch_transcripts_parallel f (w :: vs)
    ((v, exceptVal f v) :: r.1, .fetchEv v :: .sleepEv :: r.2)

/-- TRANSCRIPT_LIMITS lookup with the default fallback. -/
def transcriptLimit (depth : String) : Nat :=
  if depth = "quick" then 3 else if depth = "default" then 5
  else if depth = "deep" then 8 else 5

/-- DEPTH_CONFIG lookup with the default fallback. -/
def depthCount (depth : String) : Nat :=
  if depth = "quick" then 10 else if depth = "default" then 20
  else if depth = "deep" then 40 else 20

structure STResult where
  items : List (YTItem × String)
  error : Option String
  trace : List FEvent
deriving DecidableEq

/-- The transcript_snippet attached to an item: the dict value when present
and truthy, otherwise the empty string. -/
def snippetOf (dict : List (String × Option String)) (vid : String) : String :=
  match List.lookup vid dict with
  | some (some t) => t
  | _ => ""

/-- Model of search_and_transcribe: search, then fetch transcripts for the
first transcriptLimit items of the view-sorted list, then attach a
transcript_snippet to every item. -/
def search_and_transcribe (ok : Bool) (outcome : Except String (List RawVideo)) (now : Nat)
    (topic : String) (from_date : String) (to_date : String) (depth : String)
    (f : String → Except Unit (Option String)) : Except Unit STResult :=
  match search_youtube ok outcome now topic from_date to_date depth with
  | .error u => .error u
  | .ok sr =>
    if sr.items.isEmpty then .ok ⟨[], sr.error, []⟩
    else
      let lim := transcriptLimit depth
      let topIds := (sr.items.take lim).map (fun it => it.video_id)
      let r := fetch_transcripts_parallel f topIds
      .ok ⟨sr.items.map (fun it => (it, snippetOf r.1 it.video_id)), none, r.2⟩

/-! ## URL parsing (the slice of urllib.parse.urlparse used by brave_reddit)

Only the netloc and the path are consumed by the source. The model follows
urlparse: an optional scheme (a letter followed by letters, digits, plus,
minus or dot, then a colon) is removed; a netloc is present only after a
double slash and extends to the next slash, question mark or hash; the path
ends at the query or fragment, and the params part (after a semicolon in
the last path segment) is split off. -/

def isSchemeChar (c : Char) : Bool :=
  c.isAlpha || c.isDigit || c == '+' || c == '-' || c == '.'

/-- Remove a leading scheme: if a colon occurs and everything before it is a
valid scheme (first a letter, then scheme characters), drop through it. -/
def splitScheme (l : List Char) : List Char :=
  let pre := l.takeWhile (fun c => c != ':')
  if pre.length < l.length then
    match pre with
    | [] => l
    | c :: cs => if c.isAlpha && cs.all isSchemeChar then l.drop (pre.length + 1) else l
  else l

/-- Split off the netloc after a leading double slash. -/
def splitNetlocPath (l : List Char) : List Char × List Char :=
  match l with
  | '/' :: '/' :: rest =>
    let nl := rest.takeWhile (fun c => c != '/' && c != '?' && c != '#')
    (nl, rest.drop nl.length)
  | _ => ([], l)

/-- Truncate the path at the params separator: a semicolon in the last
slash-separated segment. -/
def splitParams (path : List Char) : List Char :=
  if path.contains '/' then
    let suf := (path.reverse.takeWhile (fun c => c != '/')).reverse
    path.take (path.length - suf.length) ++ suf.takeWhile (fun c => c != ';')
  else path.takeWhile (fun c => c != ';')

/-- The (netloc, path) pair of urlparse. -/
def urlNetlocPath (url : String) : String × String :=
  let l0 := url.data.takeWhile (fun c => c != '#')
  let l1 := splitScheme l0
  let np := splitNetlocPath l1
  (⟨np.1⟩, ⟨splitParams (np.2.takeWhile (fun c => c != '?'))⟩)

/-! ## Brave Reddit backend (brave_reddit.py) -/

/-- Model of _normalize_reddit_url: lowercase the host, require it to
contain reddit.com, collapse to the bare domain plus the path with
trailing slashes and the query stripped. -/
def normalize_reddit_url (url : String) : Option String :=
  let np := urlNetlocPath url
  let host := pyLower np.1
  if isSubChars ("reddit.com".data) host.data then
    some ("reddit.com" ++ ⟨rstripChars ['/'] np.2.data⟩)
  else none

/-- A raw Brave web result, at the granularity the source consumes: the url,
title and description strings and the two date hints. -/
structure BraveRaw where
  url : String
  title : String
  description : String
  age : Option String
  pageAge : Option String
deriving DecidableEq

def normKey (x : BraveRaw) : Option String := normalize_reddit_url x.url

/-- One step of the dedup loop of search_reddit: state is the seen key set
and the accumulated results. -/
def dedupStep (st : List String × List BraveRaw) (x : BraveRaw) : List String × List BraveRaw :=
  match normKey x with
  | none => st
  | some k => if st.1.contains k then st else (k :: st.1, st.2 ++ [x])

/-- The two nested loops of search_reddit: query variants in priority order,
then each result list in provider order, sharing one seen set. -/
def search_reddit_collect (qs : List (List BraveRaw)) : List BraveRaw :=
  (qs.foldl (fun st results => results.foldl dedupStep st) ([], [])).2

/-- Recursive form of the dedup used for reasoning. -/
def dedupeAux (seen : List String) : List BraveRaw → List BraveRaw
  | [] => []
  | x :: xs =>
    match normKey x with
    | none => dedupeAux seen xs
    | some k => if seen.contains k then dedupeAux seen xs else x :: dedupeAux (k :: seen) xs

/-- The seen set after processing a list. -/
def seenUpd (seen : List String) : List BraveRaw → List String
  | [] => seen
  | x :: xs =>
    match normKey x with
    | none => seenUpd seen xs
    | some k => if seen.contains k then seenUpd seen xs else seenUpd (k :: seen) xs

/-! ## Brave query planning -/

/-- The noise vocabulary of _extract_core_subject in brave_reddit.py. The
multi-word entries can never equal a single token, exactly as in the
source, where membership is tested word by word. -/
def braveNoise : List String :=
  ["best", "top", "how to", "tips for", "practices", "features",
   "killer", "guide", "tutorial", "recommendations", "advice",
   "prompting", "using", "for", "with", "the", "of", "in", "on",
   "what", "are", "people", "saying", "about"]

def braveFiltered (topic : String) : List String :=
  (pySplit (pyLower topic)).filter (fun w => !braveNoise.contains w)

/-- Model of _extract_core_subject in brave_reddit.py: up to four surviving
tokens, with the whole original topic as the fallback when the join is
empty. -/
def extract_core_brave (topic : String) : String :=
  let j := joinSpace ((braveFiltered topic).take 4)
  if j = "" then topic else j

/-- Model of _build_query_variants. -/
def build_query_variants (core full_topic : String) : List String :=
  let base := [core ++ " site:reddit.com", core ++ " discussion site:reddit.com"]
  let vs :=
    if pyStrip (pyLower full_topic) = pyStrip (pyLower core) then base
    else base ++ [joinSpace ((pySplit full_topic).take 6) ++ " site:reddit.com"]
  vs.take 3

/-! ## Brave result normalisation (brave_reddit._parse_results) -/

/-- Model of _is_reddit_thread. -/
def is_reddit_thread (url : String) : Bool :=
  isSubChars ("/r/".data) url.data && isSubChars ("/comments/".data) url.data

/-- The host filter of _parse_results: the host contains reddit.com and is
not one of the non-user-facing subdomains. -/
def hostOk (url : String) : Bool :=
  let host := pyLower (urlNetlocPath url).1
  isSubChars ("reddit.com".data) host.data &&
    !(isSubChars ("developers.reddit.com".data) host.data) &&
    !(isSubChars ("business.reddit.com".data) host.data)

/-- Strip HTML tags as the regular expression does: from every left angle
bracket, remove through the first following right angle bracket; a left
angle bracket with no later right one starts no match (and then nothing
later can match either). Fuel-driven for definitional reduction. -/
def stripTagsAux : Nat → List Char → List Char
  | _, [] => []
  | 0, l => l
  | fuel + 1, c :: cs =>
    if c == '<' then
      if cs.contains '>' then stripTagsAux fuel ((cs.dropWhile (fun d => d != '>')).drop 1)
      else c :: cs
    else c :: stripTagsAux fuel cs

def htmlEntities : List (String × Char) :=
  [("&amp;", '&'), ("&lt;", '<'), ("&gt;", '>'), ("&quot;", '"')]

/-- Single-pass entity decoding over the table above. -/
def unescapeAux : Nat → List Char → List Char
  | _, [] => []
  | 0, l => l
  | fuel + 1, c :: cs =>
    if c == '&' then
      match htmlEntities.find? (fun e => e.1.data.isPrefixOf (c :: cs)) with
      | some e => e.2 :: unescapeAux fuel ((c :: cs).drop e.1.data.length)
      | none => c :: unescapeAux fuel cs
    else c :: unescapeAux fuel cs

/-- Model of _clean_html: strip tags, then decode entities. The entity
table models the common subset of the Python html.unescape table. -/
def clean_html (s : String) : String :=
  let t := stripTagsAux s.data.length s.data
  ⟨unescapeAux t.length t⟩

/-- Model of _extract_subreddit: the first match of the pattern slash r
slash followed by at least one character other than a slash. -/
def extractSubChars : List Char → String
  | [] => ""
  | c :: cs =>
    match c :: cs with
    | '/' :: 'r' :: '/' :: d :: rest =>
      if d != '/' then ⟨d :: rest.takeWhile (fun e => e != '/')⟩ else extractSubChars cs
    | _ => extractSubChars cs

def extract_subreddit (url : String) : String := extractSubChars url.data

/-- Accept a date hint exactly when it is already a valid calendar date. -/
def validHint : Option String → Option String
  | some s => if isValidDateString s then some s else none
  | none => none

/-- Modelled from the spec: the real _parse_brave_date delegates to the
brave_search module, which is not among the sources of this repository.
The spec states that the date is parsed from the age and page_age hints of
the provider record, that an unparseable hint yields an absent date never
a guess, and that a present date is always a valid YYYY-MM-DD calendar
date. The model therefore accepts a hint exactly when it is already a
valid calendar date string, trying age before page_age. -/
def parse_brave_date (age pageAge : Option String) : Option String :=
  match validHint age with
  | some s => some s
  | none => validHint pageAge

structure RedditItem where
  id : String
  title : String
  url : String
  subreddit : String
  date : Option String
  why_relevant : String
  relevance : ℚ
deriving DecidableEq

/-- The rejection test of _parse_results. -/
def braveKeep (r : BraveRaw) : Bool :=
  !(r.url == "") && is_reddit_thread r.url && hostOk r.url

/-- One constructed item of _parse_results; n is the number of items
already built, giving the sequential id. -/
def mkRedditItem (n : Nat) (r : BraveRaw) : RedditItem :=
  let t := clean_html (pyStrip r.title)
  let sn := clean_html (pyStrip r.description)
  { id := "R" ++ toString (n + 1),
    title := ⟨t.data.take 200⟩,
    url := r.url,
    subreddit := extract_subreddit r.url,
    date := parse_brave_date r.age r.pageAge,
    why_relevant := if sn = "" then "" else ⟨sn.data.take 200⟩,
    relevance := relevanceSearch }

def parse_results_aux (n : Nat) : List BraveRaw → List RedditItem
  | [] => []
  | r :: rs =>
    if braveKeep r then mkRedditItem n r :: parse_results_aux (n + 1) rs
    else parse_results_aux n rs

/-- Model of _parse_results. -/
def parse_results (rs : List BraveRaw) : List RedditItem := parse_results_aux 0 rs

/-- Model of search_reddit after the network stage: qs holds the raw result
lists of the successful query variants in priority order. -/
def search_reddit_model (qs : List (List BraveRaw)) : List RedditItem :=
  parse_results (search_reddit_collect qs)

/-! ## Sorting lemmas -/

theorem insertViews_perm (x : YTItem) (l : List YTItem) :
    List.Perm (insertViews x l) (x :: l) := by
  induction l with
  | nil => simp [insertViews]
  | cons y ys ih =>
    simp only [insertViews]
    by_cases h : x.views < y.views
    · simp only [if_pos h]
      exact (ih.cons y).trans (List.Perm.swap x y ys)
    · simp [if_neg h]

theorem sortViews_perm (l : List YTItem) : List.Perm (sortViews l) l := by
  induction l with
  | nil => simp [sortViews]
  | cons x xs ih => exact (insertViews_perm x (sortViews xs)).trans (ih.cons x)

theorem insertViews_sorted (x : YTItem) (l : List YTItem)
    (h : l.Pairwise (fun a b => b.views ≤ a.views)) :
    (insertViews x l).Pairwise (fun a b => b.views ≤ a.views) := by
  induction l with
  | nil => simp [insertViews]
  | cons y ys ih =>
    rcases List.pairwise_cons.mp h with ⟨hy, hys⟩
    simp only [insertViews]
    by_cases hx : x.views < y.views
    · rw [if_pos hx]
      refine List.pairwise_cons.mpr ⟨?_, ih hys⟩
      intro z hz
      cases List.mem_cons.mp ((insertViews_perm x ys).mem_iff.mp hz) with
      | inl h1 =>
        rw [h1]
        exact le_of_lt hx
      | inr h2 => exact hy z h2
    · rw [if_neg hx]
      refine List.pairwise_cons.mpr ⟨?_, h⟩
      intro z hz
      cases List.mem_cons.mp hz with
      | inl h1 =>
        rw [h1]
        exact Int.not_lt.mp hx
      | inr h2 => exact le_trans (hy z h2) (Int.not_lt.mp hx)

theorem sortViews_sorted (l : List YTItem) :
    (sortViews l).Pairwise (fun a b => b.views ≤ a.views) := by
  induction l with
  | nil => simp [sortViews]
  | cons x xs ih => exact insertViews_sorted x (sortViews xs) ih

theorem insertViews_filter (x : YTItem) (l : List YTItem) (v : Int) :
    (insertViews x l).filter (fun it => it.views == v) =
      if x.views = v then x :: l.filter (fun it => it.views == v)
      else l.filter (fun it => it.views == v) := by
  induction l with
  | nil =>
    by_cases h : x.views = v <;>
      simp [insertViews, List.filter_cons, beq_iff_eq, h]
  | cons y ys ih =>
    simp only [insertViews]
    by_cases hx : x.views < y.views
    · rw [if_pos hx]
      by_cases hv : x.views = v
      · have hyv : ¬ y.views = v := by omega
        simp [List.filter_cons, beq_iff_eq, hv, hyv, ih]
      · by_cases hyv : y.views = v <;>
          simp [List.filter_cons, beq_iff_eq, hv, hyv, ih]
    · rw [if_neg hx]
      by_cases hv : x.views = v <;>
        by_cases hyv : y.views = v <;>
          simp [List.filter_cons, beq_iff_eq, hv, hyv]

theorem sortViews_filter (l : List YTItem) (v : Int) :
    (sortViews l).filter (fun it => it.views == v) = l.filter (fun it => it.views == v) := by
  induction l with
  | nil => rfl
  | cons x xs ih =>
    simp only [sortViews]
    rw [insertViews_filter, ih]
    by_cases hv : x.views = v <;>
      simp [List.filter_cons, beq_iff_eq, hv]

/-! ## Claim C1: the soft recency filter and the stable view-count ordering -/

/-- C1: for every list of video items and every from_date, the recency
filter keeps exactly the items with a (truthy) present date at least
from_date when that subset has at least 3 items, and otherwise keeps the
full unfiltered list; the retained set is returned sorted by view count
descending, with ties broken by original discovery order (the filter by
any fixed view count value is preserved, which is exactly stability). -/
theorem recency_filter_correct (items : List YTItem) (from_date : String) :
    List.Perm (recency_filter items from_date)
      (if 3 ≤ (items.filter (dateOkB from_date)).length then
        items.filter (dateOkB from_date)
       else items) ∧
    List.Pairwise (fun a b => b.views ≤ a.views) (recency_filter items from_date) ∧
    ∀ v : Int,
      (recency_filter items from_date).filter (fun it => it.views == v) =
        (if 3 ≤ (items.filter (dateOkB from_date)).length then
          items.filter (dateOkB from_date)
         else items).filter (fun it => it.views == v) := by
  refine ⟨?_, ?_, ?_⟩
  · exact sortViews_perm _
  · exact sortViews_sorted _
  · intro v
    exact sortViews_filter _ v

/-- Closed instance of the C1 theorem at a concrete input. -/
theorem recency_filter_correct_witness :
    List.Perm (recency_filter [] "2024-01-01") [] := by
  have h := recency_filter_correct [] "2024-01-01"
  simpa using h.1

/-! ## Claim C4: degraded results of search_youtube -/

/-- C4: when the scraping capability is not importable, or the search call
raises, search_youtube returns a value (never an exception) holding an
empty items list together with an explicit error string. -/
theorem search_youtube_degraded (ok : Bool) (outcome : Except String (List RawVideo))
    (now : Nat) (topic from_date to_date depth : String) :
    (ok = false →
      search_youtube ok outcome now topic from_date to_date depth =
        .ok ⟨[], some "scrapetube not installed"⟩) ∧
    (ok = true → ∀ e, outcome = .error e →
      search_youtube ok outcome now topic from_date to_date depth =
        .ok ⟨[], some ("scrapetube error: " ++ e)⟩) := by
  constructor
  · intro h
    subst h
    rfl
  · intro hok e h
    subst h
    subst hok
    rfl

/-! ## Transcript loop lemmas -/

theorem ftp_dict_eq (f : String → Except Unit (Option String)) (ids : List String) :
    (fetch_transcripts_parallel f ids).1 = ids.map (fun v => (v, exceptVal f v)) := by
  induction ids with
  | nil => rfl
  | cons v vs ih =>
    cases vs with
    | nil => rfl
    | cons w ws =>
      simp only [fetch_transcripts_parallel, List.map_cons] at ih ⊢
      rw [ih]

theorem lookup_map_mem (g : String → Option String) (ids : List String) (v : String)
    (h : v ∈ ids) : List.lookup v (ids.map (fun u => (u, g u))) = some (g v) := by
  induction ids with
  | nil => cases h
  | cons u us ih =>
    simp only [List.map_cons, List.lookup]
    by_cases he : u = v
    · rw [he]
      simp
    · have hb : (v == u) = false := beq_eq_false_iff_ne.mpr (fun hvu => he hvu.symm)
      rw [hb]
      have : v ∈ us := by
        cases List.mem_cons.mp h with
        | inl h1 => exact absurd h1.symm he
        | inr h2 => exact h2
      exact ih this

theorem lookup_map_not_mem (g : String → Option String) (ids : List String) (v : String)
    (h : ¬ v ∈ ids) : List.lookup v (ids.map (fun u => (u, g u))) = none := by
  induction ids with
  | nil => rfl
  | cons u us ih =>
    simp only [List.map_cons, List.lookup]
    have hne : v ≠ u := by
      intro he
      exact h (he ▸ List.mem_cons_self u us)
    rw [beq_eq_false_iff_ne.mpr hne]
    exact ih (fun hm => h (List.mem_cons_of_mem u hm))

theorem ftp_trace_eq (f : String → Except Unit (Option String)) (ids : List String) :
    (fetch_transcripts_parallel f ids).2 =
      List.intersperse FEvent.sleepEv (ids.map FEvent.fetchEv) := by
  induction ids with
  | nil => rfl
  | cons v vs ih =>
    cases vs with
    | nil => rfl
    | cons w ws =>
      simp only [fetch_transcripts_parallel, List.map_cons, List.intersperse] at ih ⊢
      rw [ih]

theorem intersperse_filter_fetch (l : List String) :
    (List.intersperse FEvent.sleepEv (l.map FEvent.fetchEv)).filter isFetchEv =
      l.map FEvent.fetchEv := by
  induction l with
  | nil => rfl
  | cons v vs ih =>
    cases vs with
    | nil => rfl
    | cons w ws =>
      simp only [List.map_cons, List.intersperse] at ih ⊢
      simp only [List.filter_cons]
      simp only [isFetchEv]
      simpa using ih

theorem intersperse_count_sleep (l : List String) (h : l ≠ []) :
    (List.intersperse FEvent.sleepEv (l.map FEvent.fetchEv)).count FEvent.sleepEv =
      l.length - 1 := by
  induction l with
  | nil => exact absurd rfl h
  | cons v vs ih =>
    cases vs with
    | nil => rfl
    | cons w ws =>
      have hne : (w :: ws) ≠ ([] : List String) := by simp
      simp only [List.map_cons, List.intersperse] at ih ⊢
      rw [List.count_cons, List.count_cons]
      have := ih hne
      simp only [List.map_cons] at this
      rw [this]
      simp [List.length_cons]

/-! ## Claim C8: serial enrichment pacing -/

/-- C8: fetches execute strictly serially in list order (the event trace is
the fetch events in input order with one pacing sleep interleaved between
each consecutive pair); there is no sleep before the first fetch, and for
N at least 2 videos exactly N-1 unit sleeps occur, so elapsed time is at
least N-1 pacing units. -/
theorem enrichment_pacing (f : String → Except Unit (Option String)) (ids : List String) :
    (fetch_transcripts_parallel f ids).2 =
      List.intersperse FEvent.sleepEv (ids.map FEvent.fetchEv) ∧
    ((fetch_transcripts_parallel f ids).2).filter isFetchEv = ids.map FEvent.fetchEv ∧
    ((fetch_transcripts_parallel f ids).2).head? = ids.head?.map FEvent.fetchEv ∧
    (2 ≤ ids.length →
      ((fetch_transcripts_parallel f ids).2).count FEvent.sleepEv = ids.length - 1) := by
  refine ⟨ftp_trace_eq f ids, ?_, ?_, ?_⟩
  · rw [ftp_trace_eq]
    exact intersperse_filter_fetch ids
  · cases ids with
    | nil => rfl
    | cons v vs =>
      cases vs with
      | nil => rfl
      | cons w ws => rfl
  · intro h
    rw [ftp_trace_eq]
    apply intersperse_count_sleep
    intro he
    rw [he] at h
    exact absurd h (by decide)

/-- Closed instance of the C8 theorem: two videos give exactly one pacing
sleep between the two fetches. -/
theorem enrichment_pacing_witness :
    (fetch_transcripts_parallel (fun v => .ok (some v)) ["a", "b"]).2.count FEvent.sleepEv =
      2 - 1 :=
  (enrichment_pacing (fun v => .ok (some v)) ["a", "b"]).2.2.2 (by decide)

/-! ## Claim C10: totality of fetch_transcripts_parallel -/

/-- C10: the function is total (the model returns a value for every input;
the per-item exception of the oracle is caught by the loop), the key set of
the returned dict is exactly the set of input ids, every id maps to the
caught fetch outcome (a transcript or none), and an id whose fetch raises
is recorded as none. -/
theorem fetch_transcripts_total (f : String → Except Unit (Option String))
    (ids : List String) :
    (∀ v : String,
      (List.lookup v (fetch_transcripts_parallel f ids).1).isSome = true ↔ v ∈ ids) ∧
    (∀ v ∈ ids, List.lookup v (fetch_transcripts_parallel f ids).1 = some (exceptVal f v)) ∧
    (∀ v ∈ ids, ∀ e : Unit, f v = .error e →
      List.lookup v (fetch_transcripts_parallel f ids).1 = some none) := by
  refine ⟨?_, ?_, ?_⟩
  · intro v
    rw [ftp_dict_eq]
    by_cases h : v ∈ ids
    · rw [lookup_map_mem _ _ _ h]
      simp [h]
    · rw [lookup_map_not_mem _ _ _ h]
      simp [h]
  · intro v h
    rw [ftp_dict_eq]
    exact lookup_map_mem _ _ _ h
  · intro v h e he
    rw [ftp_dict_eq, lookup_map_mem _ _ _ h]
    simp [exceptVal, he]

/-- Closed instance of the C10 theorem: duplicated ids and a raising fetch,
every requested id present, the raising id recorded as none. -/
theorem fetch_transcripts_total_witness :
    List.lookup "a" (fetch_transcripts_parallel
        (fun v => if v = "a" then .error () else .ok (some v)) ["a", "b", "a"]).1 =
      some none ∧
    (List.lookup "b" (fetch_transcripts_parallel
        (fun v => if v = "a" then .error () else .ok (some v)) ["a", "b", "a"]).1).isSome =
      true :=
  ⟨(fetch_transcripts_total (fun v => if v = "a" then .error () else .ok (some v))
      ["a", "b", "a"]).2.2 "a" (by decide) () (by rfl),
   (fetch_transcripts_total (fun v => if v = "a" then .error () else .ok (some v))
      ["a", "b", "a"]).1 "b" |>.mpr (by decide)⟩

/-! ## Dedup lemmas -/

theorem containsIff (seen : List String) (k : String) : seen.contains k = true ↔ k ∈ seen := by
  simp [List.contains, List.elem_iff]

theorem dedup_foldl (l : List BraveRaw) : ∀ (seen : List String) (acc : List BraveRaw),
    l.foldl dedupStep (seen, acc) = (seenUpd seen l, acc ++ dedupeAux seen l) := by
  induction l with
  | nil =>
    intro seen acc
    simp [seenUpd, dedupeAux]
  | cons x xs ih =>
    intro seen acc
    simp only [List.foldl_cons]
    cases hk : normKey x with
    | none =>
      simp only [dedupStep, hk]
      rw [ih]
      simp only [seenUpd, dedupeAux, hk]
    | some k =>
      simp only [dedupStep, hk]
      by_cases hc : seen.contains k = true
      · rw [if_pos hc, ih]
        simp only [seenUpd, dedupeAux, hk]
        rw [if_pos hc, if_pos hc]
      · rw [if_neg hc, ih]
        simp only [seenUpd, dedupeAux, hk]
        rw [if_neg hc, if_neg hc]
        simp

theorem seenUpd_append (l1 l2 : List BraveRaw) : ∀ seen : List String,
    seenUpd seen (l1 ++ l2) = seenUpd (seenUpd seen l1) l2 := by
  induction l1 with
  | nil =>
    intro seen
    simp [seenUpd]
  | cons x xs ih =>
    intro seen
    cases hk : normKey x with
    | none =>
      simp only [List.cons_append, seenUpd, hk]
      exact ih seen
    | some k =>
      simp only [List.cons_append, seenUpd, hk]
      by_cases hc : seen.contains k = true
      · rw [if_pos hc, if_pos hc]
        exact ih seen
      · rw [if_neg hc, if_neg hc]
        exact ih (k :: seen)

theorem dedupeAux_cons_none (seen : List String) (x : BraveRaw) (xs : List BraveRaw)
    (h : normKey x = none) : dedupeAux seen (x :: xs) = dedupeAux seen xs := by
  simp only [dedupeAux, h]

theorem dedupeAux_cons_seen (seen : List String) (x : BraveRaw) (xs : List BraveRaw)
    (k : String) (h : normKey x = some k) (hc : seen.contains k = true) :
    dedupeAux seen (x :: xs) = dedupeAux seen xs := by
  simp only [dedupeAux, h, if_pos hc]

theorem dedupeAux_cons_new (seen : List String) (x : BraveRaw) (xs : List BraveRaw)
    (k : String) (h : normKey x = some k) (hc : ¬ seen.contains k = true) :
    dedupeAux seen (x :: xs) = x :: dedupeAux (k :: seen) xs := by
  simp only [dedupeAux, h, if_neg hc]

theorem seenUpd_cons_none (seen : List String) (x : BraveRaw) (xs : List BraveRaw)
    (h : normKey x = none) : seenUpd seen (x :: xs) = seenUpd seen xs := by
  simp only [seenUpd, h]

theorem seenUpd_cons_seen (seen : List String) (x : BraveRaw) (xs : List BraveRaw)
    (k : String) (h : normKey x = some k) (hc : seen.contains k = true) :
    seenUpd seen (x :: xs) = seenUpd seen xs := by
  simp only [seenUpd, h, if_pos hc]

theorem seenUpd_cons_new (seen : List String) (x : BraveRaw) (xs : List BraveRaw)
    (k : String) (h : normKey x = some k) (hc : ¬ seen.contains k = true) :
    seenUpd seen (x :: xs) = seenUpd (k :: seen) xs := by
  simp only [seenUpd, h, if_neg hc]

theorem dedupeAux_append (l1 l2 : List BraveRaw) : ∀ seen : List String,
    dedupeAux seen (l1 ++ l2) = dedupeAux seen l1 ++ dedupeAux (seenUpd seen l1) l2 := by
  induction l1 with
  | nil =>
    intro seen
    simp [dedupeAux, seenUpd]
  | cons x xs ih =>
    intro seen
    rw [List.cons_append]
    cases hk : normKey x with
    | none =>
      rw [dedupeAux_cons_none seen x (xs ++ l2) hk, dedupeAux_cons_none seen x xs hk,
        seenUpd_cons_none seen x xs hk]
      exact ih seen
    | some k =>
      by_cases hc : seen.contains k = true
      · rw [dedupeAux_cons_seen seen x (xs ++ l2) k hk hc, dedupeAux_cons_seen seen x xs k hk hc,
          seenUpd_cons_seen seen x xs k hk hc]
        exact ih seen
      · rw [dedupeAux_cons_new seen x (xs ++ l2) k hk hc, dedupeAux_cons_new seen x xs k hk hc,
          seenUpd_cons_new seen x xs k hk hc, List.cons_append]
        rw [ih (k :: seen)]

theorem collect_eq (qs : List (List BraveRaw)) :
    search_reddit_collect qs = dedupeAux [] qs.flatten := by
  suffices h : ∀ (seen : List String) (acc : List BraveRaw),
      qs.foldl (fun st results => results.foldl dedupStep st) (seen, acc) =
        (seenUpd seen qs.flatten, acc ++ dedupeAux seen qs.flatten) by
    unfold search_reddit_collect
    rw [h [] []]
    simp
  induction qs with
  | nil =>
    intro seen acc
    simp [seenUpd, dedupeAux]
  | cons q qs' ih =>
    intro seen acc
    simp only [List.foldl_cons, List.flatten_cons]
    rw [dedup_foldl, ih, seenUpd_append, dedupeAux_append, List.append_assoc]

theorem dedupeAux_sublist (seen : List String) (l : List BraveRaw) :
    (dedupeAux seen l).Sublist l := by
  induction l generalizing seen with
  | nil => simp [dedupeAux]
  | cons x xs ih =>
    cases hk : normKey x with
    | none =>
      simp only [dedupeAux, hk]
      exact (ih seen).cons x
    | some k =>
      simp only [dedupeAux, hk]
      by_cases hc : seen.contains k = true
      · rw [if_pos hc]
        exact (ih seen).cons x
      · rw [if_neg hc]
        exact (ih (k :: seen)).cons₂ x

theorem dedupeAux_inv (seen : List String) (l : List BraveRaw) :
    (∀ x ∈ dedupeAux seen l, ∃ k, normKey x = some k ∧ ¬ k ∈ seen) ∧
    (dedupeAux seen l).Pairwise (fun a b => normKey a ≠ normKey b) := by
  induction l generalizing seen with
  | nil => simp [dedupeAux]
  | cons x xs ih =>
    cases hk : normKey x with
    | none =>
      simp only [dedupeAux, hk]
      exact ih seen
    | some k =>
      simp only [dedupeAux, hk]
      by_cases hc : seen.contains k = true
      · rw [if_pos hc]
        exact ih seen
      · rw [if_neg hc]
        have hks : ¬ k ∈ seen := fun hm => hc ((containsIff seen k).mpr hm)
        refine ⟨?_, ?_⟩
        · intro y hy
          cases List.mem_cons.mp hy with
          | inl h1 => exact ⟨k, by rw [h1]; exact hk, hks⟩
          | inr h2 =>
            rcases (ih (k :: seen)).1 y h2 with ⟨k', hk', hk's⟩
            exact ⟨k', hk', fun hm => hk's (List.mem_cons_of_mem k hm)⟩
        · refine List.pairwise_cons.mpr ⟨?_, (ih (k :: seen)).2⟩
          intro y hy
          rcases (ih (k :: seen)).1 y hy with ⟨k', hk', hk's⟩
          have hkk' : k' ≠ k := fun he => hk's (he ▸ List.mem_cons_self k seen)
          rw [hk, hk']
          intro he
          exact hkk' (Option.some.inj he).symm

theorem dedupeAux_first (l : List BraveRaw) : ∀ (seen : List String) (i : Nat)
    (hi : i < l.length) (k : String), normKey (l.get ⟨i, hi⟩) = some k →
    ¬ k ∈ seen → (∀ y ∈ l.take i, normKey y ≠ some k) →
    l.get ⟨i, hi⟩ ∈ dedupeAux seen l := by
  induction l with
  | nil =>
    intro seen i hi
    cases hi
  | cons x xs ih =>
    intro seen i hi k hk hks hfirst
    cases i with
    | zero =>
      simp only [List.get] at hk ⊢
      simp only [dedupeAux, hk]
      rw [if_neg (fun hc => hks ((containsIff seen k).mp hc))]
      exact List.mem_cons_self x _
    | succ j =>
      have hxk : normKey x ≠ some k := by
        apply hfirst
        simp [List.take]
      have hj : j < xs.length := Nat.lt_of_succ_lt_succ hi
      have hfirst' : ∀ y ∈ xs.take j, normKey y ≠ some k := by
        intro y hy
        apply hfirst
        simp only [List.take]
        exact List.mem_cons_of_mem x hy
      simp only [List.get]
      cases hxkey : normKey x with
      | none =>
        simp only [dedupeAux, hxkey]
        exact ih seen j hj k hk hks hfirst'
      | some k' =>
        simp only [dedupeAux, hxkey]
        by_cases hc : seen.contains k' = true
        · rw [if_pos hc]
          exact ih seen j hj k hk hks hfirst'
        · rw [if_neg hc]
          have hk'k : k ≠ k' := by
            intro he
            exact hxk (he ▸ hxkey)
          have hks' : ¬ k ∈ k' :: seen := by
            intro hm
            cases List.mem_cons.mp hm with
            | inl h1 => exact hk'k h1
            | inr h2 => exact hks h2
          exact List.mem_cons_of_mem x (ih (k' :: seen) j hj k hk hks' hfirst')

theorem dedupeAux_covers (l : List BraveRaw) : ∀ (seen : List String) (x : BraveRaw),
    x ∈ l → ∀ k : String, normKey x = some k → ¬ k ∈ seen →
    ∃ y ∈ dedupeAux seen l, normKey y = some k := by
  induction l with
  | nil =>
    intro seen x hx
    cases hx
  | cons z zs ih =>
    intro seen x hx k hk hks
    cases hzkey : normKey z with
    | none =>
      simp only [dedupeAux, hzkey]
      have hxz : x ≠ z := by
        intro he
        rw [he, hzkey] at hk
        cases hk
      have : x ∈ zs := by
        cases List.mem_cons.mp hx with
        | inl h1 => exact absurd h1 hxz
        | inr h2 => exact h2
      exact ih seen x this k hk hks
    | some k' =>
      simp only [dedupeAux, hzkey]
      by_cases hc : seen.contains k' = true
      · rw [if_pos hc]
        have hxz : x ≠ z := by
          intro he
          rw [he, hzkey] at hk
          have : k' = k := (Option.some.inj hk)
          exact hks (this ▸ (containsIff seen k').mp hc)
        have : x ∈ zs := by
          cases List.mem_cons.mp hx with
          | inl h1 => exact absurd h1 hxz
          | inr h2 => exact h2
        exact ih seen x this k hk hks
      · rw [if_neg hc]
        by_cases hkk' : k' = k
        · exact ⟨z, List.mem_cons_self z _, hkk' ▸ hzkey⟩
        · have hxz : x ≠ z := by
            intro he
            rw [he, hzkey] at hk
            exact hkk' (Option.some.inj hk)
          have hxzs : x ∈ zs := by
            cases List.mem_cons.mp hx with
            | inl h1 => exact absurd h1 hxz
            | inr h2 => exact h2
          have hks' : ¬ k ∈ k' :: seen := by
            intro hm
            cases List.mem_cons.mp hm with
            | inl h1 => exact hkk' h1.symm
            | inr h2 => exact hks h2
          rcases ih (k' :: seen) x hxzs k hk hks' with ⟨y, hy, hyk⟩
          exact ⟨y, List.mem_cons_of_mem z hy, hyk⟩

/-! ## Claim C2: first-occurrence deduplication by normalised URL -/

/-- C2: over the merged raw results of the query variants in priority
order, the dedup of search_reddit retains only records whose URL has a
normalised reddit key, never two records with the same key, and for every
key exactly the record at its first occurrence (the output is a sublist of
the merged input, any record whose key is unseen before its position is
retained, and every keyed record is represented). -/
theorem dedup_first_occurrence (qs : List (List BraveRaw)) :
    (search_reddit_collect qs).Sublist qs.flatten ∧
    (∀ x ∈ search_reddit_collect qs, ∃ k, normKey x = some k) ∧
    (search_reddit_collect qs).Pairwise (fun a b => normKey a ≠ normKey b) ∧
    (∀ (i : Nat) (hi : i < qs.flatten.length) (k : String),
      normKey (qs.flatten.get ⟨i, hi⟩) = some k →
      (∀ y ∈ qs.flatten.take i, normKey y ≠ some k) →
      qs.flatten.get ⟨i, hi⟩ ∈ search_reddit_collect qs) ∧
    (∀ x ∈ qs.flatten, ∀ k, normKey x = some k →
      ∃ y ∈ search_reddit_collect qs, normKey y = some k) := by
  rw [collect_eq]
  refine ⟨dedupeAux_sublist [] qs.flatten, ?_, (dedupeAux_inv [] qs.flatten).2, ?_, ?_⟩
  · intro x hx
    rcases (dedupeAux_inv [] qs.flatten).1 x hx with ⟨k, hk, _⟩
    exact ⟨k, hk⟩
  · intro i hi k hk hfirst
    exact dedupeAux_first qs.flatten [] i hi k hk (by simp) hfirst
  · intro x hx k hk
    exact dedupeAux_covers qs.flatten [] x hx k hk (by simp)

/-- Closed instance of the C2 theorem: two URL spellings of the same thread
arriving under different query variants; the first one is retained. -/
theorem dedup_first_occurrence_witness :
    ([[⟨"https://www.reddit.com/r/a/comments/b/", "t1", "", none, none⟩],
      [⟨"https://old.reddit.com/r/a/comments/b?x=1", "t2", "", none, none⟩,
       ⟨"https://www.reddit.com/r/c/comments/d", "t3", "", none, none⟩]] :
        List (List BraveRaw)).flatten.get ⟨0, by decide⟩ ∈
      search_reddit_collect
        [[⟨"https://www.reddit.com/r/a/comments/b/", "t1", "", none, none⟩],
         [⟨"https://old.reddit.com/r/a/comments/b?x=1", "t2", "", none, none⟩,
          ⟨"https://www.reddit.com/r/c/comments/d", "t3", "", none, none⟩]] :=
  (dedup_first_occurrence
      [[⟨"https://www.reddit.com/r/a/comments/b/", "t1", "", none, none⟩],
       [⟨"https://old.reddit.com/r/a/comments/b?x=1", "t2", "", none, none⟩,
        ⟨"https://www.reddit.com/r/c/comments/d", "t3", "", none, none⟩]]).2.2.2.1
    0 (by decide) "reddit.com/r/a/comments/b" (by decide) (by simp)

/-! ## Tokenisation lemmas -/

theorem strData_append (a b : String) : (a ++ b).data = a.data ++ b.data := rfl

theorem append_ne_empty_right (a b : String) (h : b.data ≠ []) : a ++ b ≠ "" := by
  intro he
  have : (a ++ b).data = ([] : List Char) := by rw [he]
  rw [strData_append] at this
  exact h (List.append_eq_nil.mp this).2

theorem pySplitAux_words (l : List Char) : ∀ cur : List Char,
    (∀ c ∈ cur, isWs c = false) →
    ∀ w ∈ pySplitAux cur l, w ≠ [] ∧ ∀ c ∈ w, isWs c = false := by
  induction l with
  | nil =>
    intro cur hcur w hw
    simp only [pySplitAux] at hw
    by_cases hc : cur.isEmpty = true
    · rw [if_pos hc] at hw
      cases hw
    · rw [if_neg hc] at hw
      cases List.mem_cons.mp hw with
      | inl h1 =>
        subst h1
        refine ⟨?_, ?_⟩
        · intro he
          exact hc (List.isEmpty_iff.mpr (by simpa using congrArg List.reverse he))
        · intro c hcm
          exact hcur c (List.mem_reverse.mp hcm)
      | inr h2 => cases h2
  | cons c cs ih =>
    intro cur hcur w hw
    simp only [pySplitAux] at hw
    by_cases hwc : isWs c = true
    · rw [if_pos hwc] at hw
      by_cases hc : cur.isEmpty = true
      · rw [if_pos hc] at hw
        exact ih [] (by simp) w hw
      · rw [if_neg hc] at hw
        cases List.mem_cons.mp hw with
        | inl h1 =>
          subst h1
          refine ⟨?_, ?_⟩
          · intro he
            exact hc (List.isEmpty_iff.mpr (by simpa using congrArg List.reverse he))
          · intro d hdm
            exact hcur d (List.mem_reverse.mp hdm)
        | inr h2 => exact ih [] (by simp) w h2
    · rw [if_neg hwc] at hw
      refine ih (c :: cur) ?_ w hw
      intro d hdm
      cases List.mem_cons.mp hdm with
      | inl h1 =>
        subst h1
        exact Bool.not_eq_true _ ▸ eq_false_of_ne_true hwc
      | inr h2 => exact hcur d h2

theorem pySplit_words (s : String) : ∀ w ∈ pySplit s,
    w.data ≠ [] ∧ ∀ c ∈ w.data, isWs c = false := by
  intro w hw
  unfold pySplit at hw
  rcases List.mem_map.mp hw with ⟨wc, hwc, he⟩
  subst he
  exact pySplitAux_words s.data [] (by simp) wc hwc

theorem pySplitAux_all_solid (l : List Char) : ∀ cur : List Char,
    (∀ c ∈ l, isWs c = false) →
    pySplitAux cur l =
      if (cur.reverse ++ l).isEmpty then [] else [cur.reverse ++ l] := by
  induction l with
  | nil =>
    intro cur h
    simp only [pySplitAux, List.append_nil]
    by_cases hc : cur.isEmpty = true
    · have : cur = [] := List.isEmpty_iff.mp hc
      subst this
      rfl
    · have hcne : cur ≠ [] := fun he => hc (List.isEmpty_iff.mpr he)
      rw [if_neg hc]
      have hrev : cur.reverse.isEmpty = false := by
        cases hr : cur.reverse.isEmpty
        · rfl
        · exact absurd (by simpa using congrArg List.reverse (List.isEmpty_iff.mp hr)) hcne
      rw [hrev]
      simp
  | cons c cs ih =>
    intro cur h
    have hc : isWs c = false := h c (List.mem_cons_self c cs)
    have h' := ih (c :: cur) (fun d hd => h d (List.mem_cons_of_mem c hd))
    simp only [pySplitAux, hc, Bool.false_eq_true, if_false]
    rw [h']
    have he : (c :: cur).reverse ++ cs = cur.reverse ++ c :: cs := by
      simp
    rw [he]

theorem pySplitAux_sep (w : List Char) : ∀ (rest cur : List Char),
    (∀ c ∈ w, isWs c = false) → cur.reverse ++ w ≠ [] →
    pySplitAux cur (w ++ ' ' :: rest) =
      (cur.reverse ++ w) :: pySplitAux [] rest := by
  induction w with
  | nil =>
    intro rest cur hw hne
    simp only [List.nil_append, pySplitAux]
    rw [if_pos (by decide : isWs ' ' = true)]
    have hc : cur.isEmpty = false := by
      cases hr : cur.isEmpty
      · rfl
      · exact absurd (by simp [List.isEmpty_iff.mp hr]) hne
    rw [hc]
    simp
  | cons c w' ih =>
    intro rest cur hw hne
    have hc : isWs c = false := hw c (List.mem_cons_self c w')
    show pySplitAux cur (c :: (w' ++ ' ' :: rest)) = _
    simp only [pySplitAux, hc, Bool.false_eq_true, if_false]
    rw [ih rest (c :: cur) (fun d hd => hw d (List.mem_cons_of_mem c hd)) (by simp)]
    have he : (c :: cur).reverse ++ w' = cur.reverse ++ c :: w' := by
      simp
    rw [he]

theorem pySplit_joinSpace (ws : List String) :
    (∀ w ∈ ws, w.data ≠ [] ∧ ∀ c ∈ w.data, isWs c = false) →
    pySplit (joinSpace ws) = ws := by
  induction ws with
  | nil =>
    intro _
    rfl
  | cons w ws' ih =>
    intro h
    obtain ⟨hne, hsolid⟩ := h w (List.mem_cons_self w ws')
    cases ws' with
    | nil =>
      show (pySplitAux [] w.data).map (fun t => (⟨t⟩ : String)) = [w]
      rw [pySplitAux_all_solid w.data [] hsolid]
      simp only [List.reverse_nil, List.nil_append]
      have hie : w.data.isEmpty = false := by
        cases hr : w.data.isEmpty
        · rfl
        · exact absurd (List.isEmpty_iff.mp hr) hne
      rw [hie]
      rfl
    | cons w2 ws'' =>
      have hdata : (joinSpace (w :: w2 :: ws'')).data =
          w.data ++ ' ' :: (joinSpace (w2 :: ws'')).data := by
        show (w ++ " " ++ joinSpace (w2 :: ws'')).data = _
        rw [strData_append, strData_append, List.append_assoc]
        rfl
      show ((pySplitAux [] (joinSpace (w :: w2 :: ws'')).data).map
        (fun t => (⟨t⟩ : String))) = w :: w2 :: ws''
      rw [hdata, pySplitAux_sep w.data (joinSpace (w2 :: ws'')).data [] hsolid
        (by simpa using hne)]
      simp only [List.reverse_nil, List.nil_append, List.map_cons]
      have htail := ih (fun u hu => h u (List.mem_cons_of_mem w hu))
      exact congrArg (fun t => w :: t) htail

/-! ## Claim C5: query variant planning -/

set_option maxHeartbeats 2000000 in
/-- C5 counterexample: a topic all of whose tokens belong to the noise
vocabulary falls back to the full original topic, whose core subject then
has five tokens, refuting the claimed four-token bound. -/
theorem query_planner_counterexample :
    ¬ ((pySplit (extract_core_brave "for for for for for")).length ≤ 4) := by decide

theorem extract_core_brave_tokens (topic : String) (h : braveFiltered topic ≠ []) :
    pySplit (extract_core_brave topic) = (braveFiltered topic).take 4 := by
  have hwords : ∀ w ∈ (braveFiltered topic).take 4,
      w.data ≠ [] ∧ ∀ c ∈ w.data, isWs c = false := by
    intro w hw
    exact pySplit_words (pyLower topic) w
      (List.mem_of_mem_filter (List.take_subset 4 _ hw))
  have hr : pySplit (joinSpace ((braveFiltered topic).take 4)) =
      (braveFiltered topic).take 4 := pySplit_joinSpace _ hwords
  have hne4 : (braveFiltered topic).take 4 ≠ [] := by
    cases hb : braveFiltered topic with
    | nil => exact absurd hb h
    | cons x xs =>
      simp [List.take]
  unfold extract_core_brave
  by_cases hj : joinSpace ((braveFiltered topic).take 4) = ""
  · exfalso
    rw [hj] at hr
    exact hne4 hr.symm
  · rw [if_neg hj]
    exact hr

/-- C5 amended: the planner produces at most 3 variants, ordered core plus
site restriction first, then core plus the discussion keyword, then (list
length 3) exactly when the lowercased stripped full topic differs from the
core, in which case the third variant is the topic trimmed to 6 tokens plus
the restriction; the core subject has at most 4 tokens whenever the noise
filtering leaves at least one token (otherwise it falls back to the whole
original topic, which may be longer). -/
theorem query_planner_spec (topic : String) :
    (build_query_variants (extract_core_brave topic) topic).length ≤ 3 ∧
    (build_query_variants (extract_core_brave topic) topic).take 2 =
      [extract_core_brave topic ++ " site:reddit.com",
       extract_core_brave topic ++ " discussion site:reddit.com"] ∧
    ((build_query_variants (extract_core_brave topic) topic).length = 3 ↔
      pyStrip (pyLower topic) ≠ pyStrip (pyLower (extract_core_brave topic))) ∧
    ((build_query_variants (extract_core_brave topic) topic).length = 3 →
      (build_query_variants (extract_core_brave topic) topic).getLast? =
        some (joinSpace ((pySplit topic).take 6) ++ " site:reddit.com")) ∧
    (braveFiltered topic ≠ [] → (pySplit (extract_core_brave topic)).length ≤ 4) := by
  refine ⟨?_, ?_, ?_, ?_, ?_⟩
  · unfold build_query_variants
    by_cases hc : pyStrip (pyLower topic) = pyStrip (pyLower (extract_core_brave topic)) <;>
      simp [hc]
  · unfold build_query_variants
    by_cases hc : pyStrip (pyLower topic) = pyStrip (pyLower (extract_core_brave topic)) <;>
      simp [hc, List.take]
  · unfold build_query_variants
    by_cases hc : pyStrip (pyLower topic) = pyStrip (pyLower (extract_core_brave topic)) <;>
      simp [hc]
  · intro hlen
    simp only [build_query_variants] at hlen ⊢
    by_cases hc : pyStrip (pyLower topic) = pyStrip (pyLower (extract_core_brave topic))
    · rw [if_pos hc] at hlen
      simp at hlen
    · rw [if_neg hc]
      rfl
  · intro h
    rw [extract_core_brave_tokens topic h]
    rw [List.length_take]
    exact le_trans (min_le_left _ _) (le_refl 4)

set_option maxHeartbeats 2000000 in
/-- Closed instance of the C5 amended theorem: the running example topic of
the spec reduces to a core subject of at most 4 tokens. -/
theorem query_planner_spec_witness :
    (pySplit (extract_core_brave "best practices for ChatGPT prompting")).length ≤ 4 :=
  (query_planner_spec "best practices for ChatGPT prompting").2.2.2.2 (by decide)

/-! ## Claim C7: fallback of the core-subject extraction -/

set_option maxHeartbeats 2000000 in
/-- C7 counterexample: for the topic Best every token is removed by the
noise filter, yet the video-backend extraction returns the lowercased
working text, not the original topic; and for the empty topic (all of its
zero tokens removed) the video-backend query is empty. -/
theorem planner_fallback_counterexample :
    ytFiltered "Best" = [] ∧ extract_core_yt "Best" ≠ "Best" ∧
    ytFiltered "" = [] ∧ extract_core_yt "" = "" := by decide

/-- C7 amended: when noise filtering removes every token, the search
backend extraction falls back to the original topic text while the video
backend extraction falls back to its lowercased, phrase-stripped working
text with trailing punctuation removed; the search-backend planner always
produces at least one query and all of its queries are non-empty. -/
theorem planner_fallback (topic : String) :
    (braveFiltered topic = [] → extract_core_brave topic = topic) ∧
    (ytFiltered topic = [] →
      extract_core_yt topic = pyRstrip (ytText topic) ['?', '!', '.']) ∧
    1 ≤ (build_query_variants (extract_core_brave topic) topic).length ∧
    (∀ q ∈ build_query_variants (extract_core_brave topic) topic, q ≠ "") := by
  refine ⟨?_, ?_, ?_, ?_⟩
  · intro h
    unfold extract_core_brave
    rw [h]
    rfl
  · intro h
    unfold extract_core_yt
    rw [h]
    rw [if_pos (show ([] : List String).isEmpty = true from rfl)]
  · simp only [build_query_variants]
    by_cases hc : pyStrip (pyLower topic) = pyStrip (pyLower (extract_core_brave topic))
    · rw [if_pos hc]
      simp
    · rw [if_neg hc]
      simp
  · intro q hq
    simp only [build_query_variants] at hq
    by_cases hc : pyStrip (pyLower topic) = pyStrip (pyLower (extract_core_brave topic))
    · rw [if_pos hc] at hq
      simp only [List.take, List.mem_cons, List.mem_singleton] at hq
      rcases hq with h1 | h1 | h1
      · rw [h1]
        exact append_ne_empty_right _ _ (by decide)
      · rw [h1]
        exact append_ne_empty_right _ _ (by decide)
      · cases h1
    · rw [if_neg hc] at hq
      simp only [List.take, List.mem_cons, List.mem_singleton] at hq
      rcases hq with h1 | h1 | h1 | h1
      · rw [h1]
        exact append_ne_empty_right _ _ (by decide)
      · rw [h1]
        exact append_ne_empty_right _ _ (by decide)
      · rw [h1]
        exact append_ne_empty_right _ _ (by decide)
      · cases h1

set_option maxHeartbeats 2000000 in
/-- Closed instance of the C7 amended theorem: a topic made entirely of
noise words falls back, on the search backend, to the original text. -/
theorem planner_fallback_witness :
    extract_core_brave "for for for" = "for for for" :=
  (planner_fallback "for for for").1 (by decide)

/-! ## View count sign lemmas -/

set_option maxRecDepth 4000 in
theorem charOfNat_toNat_small : ∀ n : Nat, n ≤ 200 → (Char.ofNat n).toNat = n := by decide

theorem lowerChar_eq_dash (c : Char) (h : lowerChar c = '-') : c = '-' := by
  unfold lowerChar at h
  by_cases hA : (65 ≤ c.toNat && c.toNat ≤ 90) = true
  · exfalso
    rw [if_pos hA] at h
    rcases Bool.and_eq_true .. |>.mp hA with ⟨h1, h2⟩
    have h1' : 65 ≤ c.toNat := by simpa using h1
    have h2' : c.toNat ≤ 90 := by simpa using h2
    have := congrArg Char.toNat h
    rw [charOfNat_toNat_small (c.toNat + 32) (by omega)] at this
    have hd : ('-').toNat = 45 := by decide
    rw [hd] at this
    omega
  · rw [if_neg hA] at h
    exact h

theorem mem_pyStripChars (l : List Char) (c : Char) (h : c ∈ pyStripChars l) : c ∈ l := by
  unfold pyStripChars at h
  have h1 := List.mem_reverse.mp h
  have h2 := (List.dropWhile_sublist isWs).subset h1
  have h3 := List.mem_reverse.mp h2
  exact (List.dropWhile_sublist isWs).subset h3

theorem mem_replaceAllAux (pat : List Char) : ∀ (fuel : Nat) (l : List Char) (c : Char),
    c ∈ replaceAllAux pat fuel l → c ∈ l := by
  intro fuel
  induction fuel with
  | zero =>
    intro l c h
    cases l with
    | nil => cases h
    | cons x xs => exact h
  | succ f ih =>
    intro l c h
    cases l with
    | nil => cases h
    | cons x xs =>
      simp only [replaceAllAux] at h
      by_cases hp : (pat.isPrefixOf (x :: xs) && !pat.isEmpty) = true
      · rw [if_pos hp] at h
        exact List.drop_subset _ _ (ih _ c h)
      · rw [if_neg hp] at h
        cases List.mem_cons.mp h with
        | inl h1 =>
          rw [h1]
          exact List.mem_cons_self x xs
        | inr h2 => exact List.mem_cons_of_mem x (ih xs c h2)

theorem noDash_pyLower (s : String) (h : ¬ '-' ∈ s.data) : ¬ '-' ∈ (pyLower s).data := by
  intro hm
  unfold pyLower at hm
  rcases List.mem_map.mp hm with ⟨c, hc, he⟩
  exact h (lowerChar_eq_dash c he ▸ hc)

theorem noDash_pyStrip (s : String) (h : ¬ '-' ∈ s.data) : ¬ '-' ∈ (pyStrip s).data :=
  fun hm => h (mem_pyStripChars s.data '-' hm)

theorem noDash_pyReplace (s pat : String) (h : ¬ '-' ∈ s.data) :
    ¬ '-' ∈ (pyReplace s pat).data :=
  fun hm => h (mem_replaceAllAux pat.data s.data.length s.data '-' hm)

theorem pyFloatBody_false_nonneg (body : List Char) (n : Int) (d : Nat)
    (h : pyFloatBody false body = some (.finite n d)) : 0 ≤ n := by
  unfold pyFloatBody at h
  by_cases c1 : body = "inf".data ∨ body = "infinity".data
  · rw [if_pos c1] at h
    simp at h
  · rw [if_neg c1] at h
    by_cases c2 : body = "nan".data
    · rw [if_pos c2] at h
      simp at h
    · rw [if_neg c2] at h
      cases hu : parseUnsignedFloat body with
      | none =>
        rw [hu] at h
        cases h
      | some nd =>
        rw [hu] at h
        simp only [Bool.false_eq_true, if_false] at h
        injection h with h'
        injection h' with e1 e2
        rw [← e1]
        exact Int.natCast_nonneg nd.1

theorem pyFloat_finite_nonneg (s : String) (h : ¬ '-' ∈ s.data) :
    ∀ (n : Int) (d : Nat), pyFloat s = some (.finite n d) → 0 ≤ n := by
  intro n d hpf
  have hl : ¬ '-' ∈ pyStripChars (pyLower s).data :=
    fun hm => noDash_pyLower s h (mem_pyStripChars _ '-' hm)
  have hneg : ((pyStripChars (pyLower s).data).head? == some '-') = false := by
    cases hh : (pyStripChars (pyLower s).data).head? with
    | none => rfl
    | some c =>
      by_cases hc : c = '-'
      · exfalso
        subst hc
        exact hl (List.mem_of_mem_head? hh)
      · simpa using fun he => hc he
  simp only [pyFloat, hneg] at hpf
  exact pyFloatBody_false_nonneg _ n d hpf

theorem suffixMult_spec (t : String) (p : String × Nat) (h : suffixMult t = some p) :
    0 < p.2 ∧ p.1.data = t.data.dropLast := by
  unfold suffixMult at h
  split at h
  · injection h with h'
    subst h'
    exact ⟨(by decide : (0 : Nat) < 1000), rfl⟩
  · split at h
    · injection h with h'
      subst h'
      exact ⟨(by decide : (0 : Nat) < 1000000), rfl⟩
    · split at h
      · injection h with h'
        subst h'
        exact ⟨(by decide : (0 : Nat) < 1000000000), rfl⟩
      · cases h

theorem viewCountOfFloat_nonneg (f : Option PyFloat) (mult : Nat) (z : Int)
    (hf : ∀ (n : Int) (d : Nat), f = some (.finite n d) → 0 ≤ n)
    (h : viewCountOfFloat f mult = .ok z) : 0 ≤ z := by
  unfold viewCountOfFloat at h
  cases f with
  | none =>
    injection h with h'
    omega
  | some pf =>
    cases pf with
    | finite n d =>
      injection h with h'
      subst h'
      exact Int.tdiv_nonneg (mul_nonneg (hf n d rfl) (Int.natCast_nonneg mult))
        (Int.natCast_nonneg d)
    | inf b => cases h
    | nan =>
      injection h with h'
      omega

theorem parse_view_count_nonneg (t : String) (h : ¬ '-' ∈ t.data) :
    ∀ z : Int, parse_view_count t = .ok z → 0 ≤ z := by
  intro z hz
  simp only [parse_view_count] at hz
  by_cases h0 : t = ""
  · rw [if_pos h0] at hz
    injection hz with hz'
    omega
  · rw [if_neg h0] at hz
    by_cases hnv : isSubChars ("no view".data) (pyStrip (pyLower t)).data = true
    · rw [if_pos hnv] at hz
      injection hz with hz'
      omega
    · rw [if_neg hnv] at hz
      have ht2d : ¬ '-' ∈ (pyStrip (pyReplace (pyReplace (pyReplace
          (pyStrip (pyLower t)) "views") "view") ",")).data :=
        noDash_pyStrip _ (noDash_pyReplace _ _ (noDash_pyReplace _ _ (noDash_pyReplace _ _
          (noDash_pyStrip _ (noDash_pyLower _ h)))))
      cases hsm : suffixMult (pyStrip (pyReplace (pyReplace (pyReplace
          (pyStrip (pyLower t)) "views") "view") ",")) with
      | some p =>
        rw [hsm] at hz
        obtain ⟨hpos, hdl⟩ := suffixMult_spec _ p hsm
        have hp1 : ¬ '-' ∈ p.1.data := by
          rw [hdl]
          intro hm
          exact ht2d ((List.dropLast_sublist _).subset hm)
        exact viewCountOfFloat_nonneg (pyFloat p.1) p.2 z
          (fun n d hpf => pyFloat_finite_nonneg p.1 hp1 n d hpf) hz
      | none =>
        rw [hsm] at hz
        exact viewCountOfFloat_nonneg _ 1 z
          (fun n d hpf => pyFloat_finite_nonneg _ ht2d n d hpf) hz

/-! ## Item construction lemmas -/

theorem mkItem_fields (now : Nat) (core : String) (v : RawVideo) (it : YTItem)
    (h : mkItem now core v = .ok it) :
    it.likes = 0 ∧ it.comments = 0 ∧ it.relevance = relevanceVideo ∧
    it.url = "https://www.youtube.com/watch?v=" ++ v.videoId ∧
    parse_view_count v.viewCountText = .ok it.views ∧
    parse_relative_date v.publishedTimeText now = .ok it.date := by
  unfold mkItem at h
  cases hv : parse_view_count v.viewCountText with
  | error u =>
    rw [hv] at h
    cases h
  | ok views =>
    rw [hv] at h
    cases hd : parse_relative_date v.publishedTimeText now with
    | error u =>
      rw [hd] at h
      cases h
    | ok d =>
      rw [hd] at h
      injection h with h'
      subst h'
      exact ⟨rfl, rfl, rfl, rfl, rfl, rfl⟩

theorem mkItems_mem (now : Nat) (core : String) : ∀ (vs : List RawVideo)
    (items : List YTItem), mkItems now core vs = .ok items →
    ∀ it ∈ items, ∃ v ∈ vs, mkItem now core v = .ok it := by
  intro vs
  induction vs with
  | nil =>
    intro items h it hit
    injection h with h'
    subst h'
    cases hit
  | cons v vs' ih =>
    intro items h it hit
    simp only [mkItems] at h
    by_cases hv : v.videoId = ""
    · rw [if_pos hv] at h
      rcases ih items h it hit with ⟨w, hw, hwk⟩
      exact ⟨w, List.mem_cons_of_mem v hw, hwk⟩
    · rw [if_neg hv] at h
      cases hmk : mkItem now core v with
      | error u =>
        rw [hmk] at h
        cases h
      | ok itv =>
        rw [hmk] at h
        cases hrest : mkItems now core vs' with
        | error u =>
          rw [hrest] at h
          cases h
        | ok rest =>
          rw [hrest] at h
          injection h with h'
          subst h'
          cases List.mem_cons.mp hit with
          | inl h1 =>
            subst h1
            exact ⟨v, List.mem_cons_self v vs', hmk⟩
          | inr h2 =>
            rcases ih rest hrest it h2 with ⟨w, hw, hwk⟩
            exact ⟨w, List.mem_cons_of_mem v hw, hwk⟩

/-! ## Calendar lemmas -/

theorem daysInYear_ge (y : Nat) : 365 ≤ daysInYear y := by
  unfold daysInYear
  split <;> omega

theorem le_sumDaysFrom (k : Nat) : ∀ y : Nat, 365 * k ≤ sumDaysFrom y k := by
  induction k with
  | zero =>
    intro y
    simp [sumDaysFrom]
  | succ k ih =>
    intro y
    have h1 := ih (y + 1)
    have h2 := daysInYear_ge y
    simp only [sumDaysFrom]
    omega

theorem sumDaysFrom_succ : ∀ k y : Nat,
    sumDaysFrom y (k + 1) = sumDaysFrom y k + daysInYear (y + k) := by
  intro k
  induction k with
  | zero =>
    intro y
    simp [sumDaysFrom]
  | succ k ih =>
    intro y
    show daysInYear y + sumDaysFrom (y + 1) (k + 1) =
      daysInYear y + sumDaysFrom (y + 1) k + daysInYear (y + (k + 1))
    rw [ih (y + 1)]
    have hy : y + 1 + k = y + (k + 1) := by omega
    rw [hy]
    omega

theorem sumDaysFrom_mono (y : Nat) : ∀ k j : Nat, j ≤ k →
    sumDaysFrom y j ≤ sumDaysFrom y k := by
  intro k
  induction k with
  | zero =>
    intro j h
    have hj : j = 0 := by omega
    subst hj
    exact le_refl _
  | succ k ih =>
    intro j h
    by_cases hj : j = k + 1
    · subst hj
      exact le_refl _
    · have h' := ih j (by omega)
      rw [sumDaysFrom_succ]
      omega

theorem findYear_spec : ∀ k y n fuel : Nat, 1 ≤ n → n ≤ sumDaysFrom y k → n ≤ fuel →
    ∃ i, i < k ∧ ∃ d, findYear fuel y n = (y + i, d) ∧ 1 ≤ d ∧ d ≤ daysInYear (y + i) ∧
      n = sumDaysFrom y i + d := by
  intro k
  induction k with
  | zero =>
    intro y n fuel h1 h2 _
    simp only [sumDaysFrom] at h2
    omega
  | succ k ih =>
    intro y n fuel h1 h2 hf
    cases fuel with
    | zero => omega
    | succ f =>
      simp only [findYear]
      by_cases hle : n ≤ daysInYear y
      · rw [if_pos hle]
        exact ⟨0, Nat.succ_pos k, n, by simp, h1, by simpa using hle, by simp [sumDaysFrom]⟩
      · rw [if_neg hle]
        have hgt : daysInYear y < n := Nat.lt_of_not_le hle
        have hdy := daysInYear_ge y
        have h2' : n - daysInYear y ≤ sumDaysFrom (y + 1) k := by
          simp only [sumDaysFrom] at h2
          omega
        rcases ih (y + 1) (n - daysInYear y) f (by omega) h2' (by omega) with
          ⟨i, hik, d, he, hd1, hd2, hsum⟩
        have hy : y + 1 + i = y + (i + 1) := by omega
        rw [hy] at he hd2
        refine ⟨i + 1, by omega, d, he, hd1, hd2, ?_⟩
        simp only [sumDaysFrom]
        omega

theorem monthDayAux_spec : ∀ (lens : List Nat) (m0 d : Nat), 1 ≤ d → d ≤ lens.sum →
    ∃ i, i < lens.length ∧
      ∃ d', monthDayAux lens m0 d = (m0 + i, d') ∧ 1 ≤ d' ∧ d' ≤ lens.getD i 0 := by
  intro lens
  induction lens with
  | nil =>
    intro m0 d h1 h2
    simp at h2
    omega
  | cons L rest ih =>
    intro m0 d h1 h2
    simp only [monthDayAux]
    by_cases hle : d ≤ L
    · rw [if_pos hle]
      exact ⟨0, by simp, d, by simp, h1, by simpa using hle⟩
    · rw [if_neg hle]
      have h2' : d - L ≤ rest.sum := by
        simp only [List.sum_cons] at h2
        omega
      rcases ih (m0 + 1) (d - L) (by omega) h2' with ⟨i, hik, d', he, hd1, hd2⟩
      have hm : m0 + 1 + i = m0 + (i + 1) := by omega
      rw [hm] at he
      refine ⟨i + 1, by simpa using Nat.succ_lt_succ hik, d', he, hd1, ?_⟩
      simpa using hd2

theorem sum_monthLengths (y : Nat) : (monthLengths y).sum = daysInYear y := by
  cases h : isLeap y <;> simp [monthLengths, daysInYear, h]

theorem isDig_digitChar (k : Nat) (h : k ≤ 9) : isDig (digitChar k) = true := by
  have hc := charOfNat_toNat_small (48 + k) (by omega)
  simp only [isDig, digitChar, hc]
  simp only [Bool.and_eq_true, decide_eq_true_eq]
  omega

theorem rdDig_digitChar (k : Nat) (h : k ≤ 9) : rdDig (digitChar k) = k := by
  have hc := charOfNat_toNat_small (48 + k) (by omega)
  simp only [rdDig, digitChar, hc]
  omega

theorem daysInMonth_le (y m : Nat) : daysInMonth y m ≤ 31 := by
  unfold daysInMonth
  cases hL : isLeap y <;>
    simp only [monthLengths, hL] <;>
    rcases m with _ | _ | _ | _ | _ | _ | _ | _ | _ | _ | _ | _ | _ | m <;>
    simp [List.getD]

theorem natDigitsAux_step (fuel n : Nat) (hf : 1 ≤ fuel) (h : ¬ n < 10) :
    natDigitsAux fuel n = natDigitsAux (fuel - 1) (n / 10) ++ [digitChar (n % 10)] := by
  obtain ⟨k, hk⟩ : ∃ k, fuel = k + 1 := ⟨fuel - 1, by omega⟩
  subst hk
  simp [natDigitsAux, h]

theorem natDigitsAux_single (fuel n : Nat) (hf : 1 ≤ fuel) (h : n < 10) :
    natDigitsAux fuel n = [digitChar n] := by
  obtain ⟨k, hk⟩ : ∃ k, fuel = k + 1 := ⟨fuel - 1, by omega⟩
  subst hk
  simp [natDigitsAux, h]

/-- For four-digit years the unpadded rendering coincides with the
zero-padded one. -/
theorem yearChars_eq_pad4 (y : Nat) (h1 : 1000 ≤ y) (h2 : y ≤ 9999) :
    yearChars y = pad4 y := by
  have s1 : ¬ y < 10 := by omega
  have s2 : ¬ y / 10 < 10 := by omega
  have s3 : ¬ y / 10 / 10 < 10 := by omega
  have s4 : y / 10 / 10 / 10 < 10 := by omega
  unfold yearChars
  rw [natDigitsAux_step (y + 1) y (by omega) s1]
  rw [natDigitsAux_step (y + 1 - 1) (y / 10) (by omega) s2]
  rw [natDigitsAux_step (y + 1 - 1 - 1) (y / 10 / 10) (by omega) s3]
  rw [natDigitsAux_single (y + 1 - 1 - 1 - 1) (y / 10 / 10 / 10) (by omega) s4]
  have e1 : y / 10 / 10 / 10 = y / 1000 % 10 := by omega
  have e2 : y / 10 / 10 % 10 = y / 100 % 10 := by omega
  rw [e1, e2]
  simp [pad4]

theorem natDigitsAux_len : ∀ fuel k n : Nat, 1 ≤ k → n < 10 ^ k →
    (natDigitsAux fuel n).length ≤ k := by
  intro fuel
  induction fuel with
  | zero =>
    intro k n _ _
    simp [natDigitsAux]
  | succ f ih =>
    intro k n hk hn
    by_cases h10 : n < 10
    · simp only [natDigitsAux, if_pos h10, List.length_cons, List.length_nil]
      omega
    · have hk2 : 2 ≤ k := by
        by_contra hc
        have hk1 : k = 1 := by omega
        subst hk1
        rw [pow_one] at hn
        omega
      have hpow : 10 ^ k = 10 * 10 ^ (k - 1) := by
        have hke : k = (k - 1) + 1 := by omega
        conv_lhs => rw [hke]
        rw [pow_succ]
        ring
      have hrec := ih (k - 1) (n / 10) (by omega) (by omega)
      simp only [natDigitsAux, if_neg h10, List.length_append, List.length_cons,
        List.length_nil]
      omega

theorem yearChars_len_le3 (y : Nat) (h : y ≤ 999) : (yearChars y).length ≤ 3 := by
  have h3 : (10 : Nat) ^ 3 = 1000 := by norm_num
  exact natDigitsAux_len (y + 1) 3 y (by omega) (by omega)

/-- A string passing the date check has exactly 10 characters. -/
theorem isValidDateString_len (s : String) (h : isValidDateString s = true) :
    s.data.length = 10 := by
  rcases s with ⟨l⟩
  rcases l with _ | ⟨a, _ | ⟨b, _ | ⟨c, _ | ⟨d, _ | ⟨e, _ | ⟨f, _ |
    ⟨g, _ | ⟨h8, _ | ⟨i9, _ | ⟨j, _ | ⟨k, r⟩⟩⟩⟩⟩⟩⟩⟩⟩⟩⟩ <;>
    first
      | rfl
      | exact Bool.noConfusion h

theorem formatDate_len (y m d : Nat) :
    (formatDate y m d).data.length = (yearChars y).length + 6 := by
  simp only [formatDate, List.length_append, List.length_cons, pad2,
    List.length_nil]

theorem isValidDateString_format (y m d : Nat) (h1 : 1000 ≤ y) (h2 : y ≤ 9999)
    (h3 : 1 ≤ m) (h4 : m ≤ 12) (h5 : 1 ≤ d) (h6 : d ≤ daysInMonth y m) :
    isValidDateString (formatDate y m d) = true := by
  have h1' : 1 ≤ y := by omega
  have hyc : yearChars y = pad4 y := yearChars_eq_pad4 y h1 h2
  have hd99 : d ≤ 31 := le_trans h6 (daysInMonth_le y m)
  have hy1 : y / 1000 % 10 ≤ 9 := Nat.le_of_lt_succ (Nat.mod_lt _ (by omega))
  have hy2 : y / 100 % 10 ≤ 9 := Nat.le_of_lt_succ (Nat.mod_lt _ (by omega))
  have hy3 : y / 10 % 10 ≤ 9 := Nat.le_of_lt_succ (Nat.mod_lt _ (by omega))
  have hy4 : y % 10 ≤ 9 := Nat.le_of_lt_succ (Nat.mod_lt _ (by omega))
  have hm1 : m / 10 % 10 ≤ 9 := Nat.le_of_lt_succ (Nat.mod_lt _ (by omega))
  have hm2 : m % 10 ≤ 9 := Nat.le_of_lt_succ (Nat.mod_lt _ (by omega))
  have hd1 : d / 10 % 10 ≤ 9 := Nat.le_of_lt_succ (Nat.mod_lt _ (by omega))
  have hd2 : d % 10 ≤ 9 := Nat.le_of_lt_succ (Nat.mod_lt _ (by omega))
  have hyv : ((rdDig (digitChar (y / 1000 % 10)) * 10 + rdDig (digitChar (y / 100 % 10))) * 10 +
      rdDig (digitChar (y / 10 % 10))) * 10 + rdDig (digitChar (y % 10)) = y := by
    rw [rdDig_digitChar _ hy1, rdDig_digitChar _ hy2, rdDig_digitChar _ hy3,
      rdDig_digitChar _ hy4]
    omega
  have hmv : rdDig (digitChar (m / 10 % 10)) * 10 + rdDig (digitChar (m % 10)) = m := by
    rw [rdDig_digitChar _ hm1, rdDig_digitChar _ hm2]
    omega
  have hdv : rdDig (digitChar (d / 10 % 10)) * 10 + rdDig (digitChar (d % 10)) = d := by
    rw [rdDig_digitChar _ hd1, rdDig_digitChar _ hd2]
    omega
  show isValidDateString ⟨yearChars y ++ ('-' :: pad2 m) ++ ('-' :: pad2 d)⟩ = true
  rw [hyc]
  simp only [pad4, pad2, List.cons_append, List.nil_append]
  simp only [isValidDateString]
  simp only [isDig_digitChar _ hy1, isDig_digitChar _ hy2, isDig_digitChar _ hy3,
    isDig_digitChar _ hy4, isDig_digitChar _ hm1, isDig_digitChar _ hm2,
    isDig_digitChar _ hd1, isDig_digitChar _ hd2]
  rw [hyv, hmv, hdv]
  simp only [Bool.and_eq_true, decide_eq_true_eq, beq_self_eq_true]
  exact ⟨by simp, ⟨⟨⟨h1', h3⟩, h4⟩, h5⟩, h6⟩

/-- Dates on or after the first day of year 1000 render as valid
YYYY-MM-DD strings. -/
theorem formatOrdinal_valid (o : Nat) (h1 : sumDaysFrom 1 999 < o)
    (h2 : o ≤ sumDaysFrom 1 9999) :
    isValidDateString (formatOrdinal o) = true := by
  have h1' : 1 ≤ o := by omega
  unfold formatOrdinal ordToYMD
  rcases findYear_spec 9999 1 o o h1' h2 (le_refl o) with ⟨i, hik, dd, he, hdd1, hdd2, hos⟩
  rw [he]
  have hy1000 : 1000 ≤ 1 + i := by
    by_contra hc
    have hstep : sumDaysFrom 1 (i + 1) = sumDaysFrom 1 i + daysInYear (1 + i) :=
      sumDaysFrom_succ i 1
    have hmono := sumDaysFrom_mono 1 999 (i + 1) (by omega)
    omega
  have hsum : (monthLengths (1 + i)).sum = daysInYear (1 + i) := sum_monthLengths _
  rcases monthDayAux_spec (monthLengths (1 + i)) 1 dd hdd1 (by rw [hsum]; exact hdd2) with
    ⟨j, hjk, d', hme, hd1', hd2'⟩
  show isValidDateString (formatDate (1 + i) (monthDayAux (monthLengths (1 + i)) 1 dd).1
    (monthDayAux (monthLengths (1 + i)) 1 dd).2) = true
  rw [hme]
  have hlen : (monthLengths (1 + i)).length = 12 := by
    simp [monthLengths]
  rw [hlen] at hjk
  apply isValidDateString_format
  · exact hy1000
  · omega
  · omega
  · omega
  · exact hd1'
  · unfold daysInMonth
    have hj : 1 + j - 1 = j := by omega
    rw [hj]
    exact hd2'

/-- Dates before year 1000 render with an unpadded short year field, so the
string has fewer than 10 characters and fails the YYYY-MM-DD check. -/
theorem formatOrdinal_invalid (o : Nat) (h1 : 1 ≤ o) (h2 : o ≤ sumDaysFrom 1 999) :
    isValidDateString (formatOrdinal o) = false := by
  unfold formatOrdinal ordToYMD
  rcases findYear_spec 999 1 o o h1 h2 (le_refl o) with ⟨i, hik, dd, he, hdd1, hdd2, hos⟩
  rw [he]
  show isValidDateString (formatDate (1 + i) (monthDayAux (monthLengths (1 + i)) 1 dd).1
    (monthDayAux (monthLengths (1 + i)) 1 dd).2) = false
  cases hb : isValidDateString (formatDate (1 + i) (monthDayAux (monthLengths (1 + i)) 1 dd).1
      (monthDayAux (monthLengths (1 + i)) 1 dd).2) with
  | false => rfl
  | true =>
    exfalso
    have hl10 := isValidDateString_len _ hb
    have hylen := yearChars_len_le3 (1 + i) (by omega)
    have hflen := formatDate_len (1 + i) (monthDayAux (monthLengths (1 + i)) 1 dd).1
      (monthDayAux (monthLengths (1 + i)) 1 dd).2
    omega

theorem parse_relative_date_ok (text : String) (now : Nat) (h1 : 1 ≤ now) :
    ∀ s : String, parse_relative_date text now = .ok (some s) →
    ∃ o, 1 ≤ o ∧ o ≤ now ∧ s = formatOrdinal o := by
  intro s hp
  simp only [parse_relative_date] at hp
  by_cases h0 : text = ""
  · rw [if_pos h0] at hp
    injection hp with hp'
    cases hp'
  · rw [if_neg h0] at hp
    cases hr : parseRel (pyStrip (pyLower text)).data with
    | none =>
      rw [hr] at hp
      injection hp with hp'
      cases hp'
    | some au =>
      rw [hr] at hp
      have hp' : (if au.2 = "second" ∨ au.2 = "minute" ∨ au.2 = "hour" then
          (Except.ok (some (formatOrdinal now)) : Except Unit (Option String))
        else if au.1 * dayMult au.2 < now then
          Except.ok (some (formatOrdinal (now - au.1 * dayMult au.2)))
        else Except.error ()) = Except.ok (some s) := hp
      by_cases hu : au.2 = "second" ∨ au.2 = "minute" ∨ au.2 = "hour"
      · rw [if_pos hu] at hp'
        injection hp' with hq
        injection hq with hq'
        exact ⟨now, h1, le_refl now, hq'.symm⟩
      · rw [if_neg hu] at hp'
        by_cases hd : au.1 * dayMult au.2 < now
        · rw [if_pos hd] at hp'
          injection hp' with hq
          injection hq with hq'
          exact ⟨now - au.1 * dayMult au.2, by omega, by omega, hq'.symm⟩
        · rw [if_neg hd] at hp'
          cases hp'

/-! ## Claim C9: engagement counters -/

/-- C9 counterexample: the raw view count text minus five views parses to
the negative integer minus five, refuting the claimed non-negativity. -/
theorem view_count_counterexample :
    parse_view_count "-5 views" = .ok (-5) ∧ ¬ (0 ≤ (-5 : Int)) := ⟨rfl, by decide⟩

/-- C9 amended: every constructed item has likes and comments 0 and views
equal to the parse of the raw view count text (comma separators, the No
views form and K, M, B suffixes handled, 0 when unparseable); the parsed
value is non-negative for every raw text not containing a minus sign, but
a minus sign can produce a negative value. -/
theorem engagement_counters (now : Nat) (core : String) (vs : List RawVideo)
    (items : List YTItem) (hmk : mkItems now core vs = .ok items) :
    (∀ it ∈ items, it.likes = 0 ∧ it.comments = 0 ∧
      ∃ v ∈ vs, parse_view_count v.viewCountText = .ok it.views) ∧
    (∀ t : String, ¬ '-' ∈ t.data → ∀ z : Int, parse_view_count t = .ok z → 0 ≤ z) ∧
    parse_view_count "1,234 views" = .ok 1234 ∧
    parse_view_count "No views" = .ok 0 ∧
    parse_view_count "1.2M views" = .ok 1200000 ∧
    parse_view_count "abc views" = .ok 0 := by
  refine ⟨?_, parse_view_count_nonneg, rfl, rfl, rfl, rfl⟩
  intro it hit
  rcases mkItems_mem now core vs items hmk it hit with ⟨v, hv, hvk⟩
  rcases mkItem_fields now core v it hvk with ⟨h1, h2, _, _, h5, _⟩
  exact ⟨h1, h2, v, hv, h5⟩

/-- Closed instance of the C9 amended theorem at concrete inputs. -/
theorem engagement_counters_witness :
    parse_view_count "1,234 views" = .ok 1234 ∧ (0 : Int) ≤ 12 :=
  ⟨(engagement_counters 400 "c" [] [] rfl).2.2.1,
   (engagement_counters 400 "c" [] [] rfl).2.1 "12" (by decide) 12 rfl⟩

/-! ## Claim C6: schema completeness -/

theorem append_ne_empty_left (a b : String) (h : a.data ≠ []) : a ++ b ≠ "" := by
  intro he
  have hd : (a ++ b).data = ([] : List Char) := by rw [he]
  rw [strData_append] at hd
  exact h (List.append_eq_nil.mp hd).1

theorem mem_recency_filter (items : List YTItem) (fd : String) (it : YTItem)
    (h : it ∈ recency_filter items fd) : it ∈ items := by
  unfold recency_filter at h
  have h1 := (sortViews_perm _).mem_iff.mp h
  by_cases hc : 3 ≤ (items.filter (dateOkB fd)).length
  · rw [if_pos hc] at h1
    exact List.mem_of_mem_filter h1
  · rw [if_neg hc] at h1
    exact h1

theorem relevanceVideo_eq : relevanceVideo = 7 / 10 := by
  have h1 : relevanceVideo.num = 7 := rfl
  have h2 : relevanceVideo.den = 10 := rfl
  rw [← Rat.num_div_den relevanceVideo, h1, h2]
  norm_num

theorem relevanceSearch_eq : relevanceSearch = 13 / 20 := by
  have h1 : relevanceSearch.num = 13 := rfl
  have h2 : relevanceSearch.den = 20 := rfl
  rw [← Rat.num_div_den relevanceSearch, h1, h2]
  norm_num

theorem relevanceVideo_bounds : 0 ≤ relevanceVideo ∧ relevanceVideo ≤ 1 := by
  rw [relevanceVideo_eq]
  norm_num

theorem relevanceSearch_bounds : 0 ≤ relevanceSearch ∧ relevanceSearch ≤ 1 := by
  rw [relevanceSearch_eq]
  norm_num

theorem parse_brave_date_valid (age pageAge : Option String) (s : String)
    (h : parse_brave_date age pageAge = some s) : isValidDateString s = true := by
  unfold parse_brave_date at h
  have hvh : ∀ o : Option String, ∀ t, validHint o = some t → isValidDateString t = true := by
    intro o t ho
    cases o with
    | none => simp [validHint] at ho
    | some u =>
      by_cases hu : isValidDateString u = true
      · simp only [validHint, hu, if_true] at ho
        injection ho with ho'
        rw [← ho']
        exact hu
      · simp [validHint, hu] at ho
  cases hv : validHint age with
  | some t =>
    rw [hv] at h
    have h' : some t = some s := h
    injection h' with h''
    subst h''
    exact hvh age t hv
  | none =>
    rw [hv] at h
    have h' : validHint pageAge = some s := h
    exact hvh pageAge s h'

theorem parse_results_aux_mem : ∀ (rs : List BraveRaw) (n : Nat),
    ∀ item ∈ parse_results_aux n rs,
    ∃ r ∈ rs, braveKeep r = true ∧ ∃ m, item = mkRedditItem m r := by
  intro rs
  induction rs with
  | nil =>
    intro n item h
    cases h
  | cons r rs' ih =>
    intro n item h
    simp only [parse_results_aux] at h
    by_cases hk : braveKeep r = true
    · rw [if_pos hk] at h
      cases List.mem_cons.mp h with
      | inl h1 => exact ⟨r, List.mem_cons_self r rs', hk, n, h1⟩
      | inr h2 =>
        rcases ih (n + 1) item h2 with ⟨r', hr', hk', m, he⟩
        exact ⟨r', List.mem_cons_of_mem r hr', hk', m, he⟩
    · rw [if_neg hk] at h
      rcases ih n item h with ⟨r', hr', hk', m, he⟩
      exact ⟨r', List.mem_cons_of_mem r hr', hk', m, he⟩

set_option maxRecDepth 8000 in
/-- C6 counterexample: the raw published time text 1100 years ago, seen at
datetime.now() of 2025-07-06 (ordinal 739438), lands on 926-03-30; strftime
on glibc does not zero-pad the year, so the final video search output
carries the 9-character date 926-03-30, which does not match YYYY-MM-DD. -/
theorem schema_date_counterexample :
    (search_youtube true (.ok [⟨"v1", "t", "c", "5 views", "1100 years ago", ""⟩])
        739438 "topic" "2024-01-01" "2024-12-31" "default").map
        (fun r => r.items.map YTItem.date) = .ok [some "926-03-30"] ∧
      isValidDateString "926-03-30" = false ∧
      ("926-03-30" : String).data.length = 9 :=
  ⟨rfl, by decide, by decide⟩

/-- C6 amended: every item of the final video search output has a non-empty
url, the static video relevance constant 0.7 lying in the unit interval,
and a date that is absent or the strftime rendering of a computed past
ordinal day; that rendering matches YYYY-MM-DD and names a valid calendar
date exactly when the computed day falls in year 1000 or later (earlier
years render with an unpadded short year field). Every item of the Brave
result normalisation has a non-empty url, the static search relevance
constant 0.65 lying in the unit interval, and a date that is absent or a
valid YYYY-MM-DD calendar date. The now hypotheses say that datetime.now()
lies in the representable range of Python datetimes. -/
theorem schema_completeness (now : Nat) (h1 : 1 ≤ now) (h2 : now ≤ sumDaysFrom 1 9999) :
    (∀ (ok : Bool) (outcome : Except String (List RawVideo)) (topic fd td depth : String)
      (r : YTResult), search_youtube ok outcome now topic fd td depth = .ok r →
      ∀ it ∈ r.items, it.url ≠ "" ∧ it.relevance = relevanceVideo ∧
        (0 ≤ it.relevance ∧ it.relevance ≤ 1) ∧
        (it.date = none ∨ ∃ o, 1 ≤ o ∧ o ≤ now ∧ it.date = some (formatOrdinal o) ∧
          (isValidDateString (formatOrdinal o) = true ↔ sumDaysFrom 1 999 < o))) ∧
    (∀ results : List BraveRaw, ∀ item ∈ parse_results results,
      item.url ≠ "" ∧ item.relevance = relevanceSearch ∧
      (0 ≤ item.relevance ∧ item.relevance ≤ 1) ∧
      (item.date = none ∨ ∃ s, item.date = some s ∧ isValidDateString s = true)) ∧
    relevanceVideo = 7 / 10 ∧ relevanceSearch = 13 / 20 := by
  refine ⟨?_, ?_, relevanceVideo_eq, relevanceSearch_eq⟩
  · intro ok outcome topic fd td depth r hr it hit
    unfold search_youtube at hr
    by_cases hok : (!ok) = true
    · rw [if_pos hok] at hr
      injection hr with hr'
      rw [← hr'] at hit
      cases hit
    · rw [if_neg hok] at hr
      cases outcome with
      | error e =>
        injection hr with hr'
        rw [← hr'] at hit
        cases hit
      | ok videos =>
        have hr2 : (match mkItems now (extract_core_yt topic) videos with
          | .error u => (Except.error u : Except Unit YTResult)
          | .ok items => .ok ⟨recency_filter items fd, none⟩) = .ok r := hr
        cases hmk : mkItems now (extract_core_yt topic) videos with
        | error u =>
          rw [hmk] at hr2
          cases hr2
        | ok items =>
          rw [hmk] at hr2
          injection hr2 with hr'
          rw [← hr'] at hit
          have hsrc : it ∈ items := mem_recency_filter items fd it hit
          rcases mkItems_mem now (extract_core_yt topic) videos items hmk it hsrc with
            ⟨v, hv, hvk⟩
          rcases mkItem_fields now (extract_core_yt topic) v it hvk with
            ⟨_, _, hrel, hurl, _, hdate⟩
          refine ⟨?_, hrel, by rw [hrel]; exact relevanceVideo_bounds, ?_⟩
          · rw [hurl]
            exact append_ne_empty_left _ _ (by decide)
          · cases hd : it.date with
            | none => exact Or.inl rfl
            | some s =>
              right
              rw [hd] at hdate
              rcases parse_relative_date_ok v.publishedTimeText now h1 s hdate with
                ⟨o, ho1, ho2, hos⟩
              refine ⟨o, ho1, ho2, by rw [hos], ?_⟩
              by_cases hgt : sumDaysFrom 1 999 < o
              · exact ⟨fun _ => hgt, fun _ => formatOrdinal_valid o hgt (le_trans ho2 h2)⟩
              · constructor
                · intro hv
                  rw [formatOrdinal_invalid o ho1 (by omega)] at hv
                  exact Bool.noConfusion hv
                · intro hg
                  exact absurd hg hgt
  · intro results item hitem
    rcases parse_results_aux_mem results 0 item hitem with ⟨r, _, hk, m, he⟩
    subst he
    have hurl : r.url ≠ "" := by
      unfold braveKeep at hk
      rcases Bool.and_eq_true .. |>.mp hk with ⟨hk1, _⟩
      rcases Bool.and_eq_true .. |>.mp hk1 with ⟨hk2, _⟩
      intro hemp
      rw [hemp] at hk2
      simp at hk2
    refine ⟨hurl, rfl, relevanceSearch_bounds, ?_⟩
    show parse_brave_date r.age r.pageAge = none ∨
      ∃ s, parse_brave_date r.age r.pageAge = some s ∧ isValidDateString s = true
    cases hd : parse_brave_date r.age r.pageAge with
    | none => exact Or.inl rfl
    | some s => exact Or.inr ⟨s, rfl, parse_brave_date_valid r.age r.pageAge s hd⟩

/-- Closed instance of the C6 theorem with the now hypotheses discharged at
a concrete ordinal. -/
theorem schema_completeness_witness :
    relevanceVideo = 7 / 10 ∧ relevanceSearch = 13 / 20 :=
  ⟨(schema_completeness 400 (by decide)
      (le_trans (by norm_num) (le_sumDaysFrom 9999 1))).2.2.1,
   (schema_completeness 400 (by decide)
      (le_trans (by norm_num) (le_sumDaysFrom 9999 1))).2.2.2⟩

/-! ## Claim C3: transcripts for the top N items only -/

theorem snippetOf_eq_of_lookup (dict : List (String × Option String)) (v : String)
    (ov : Option String) (h : List.lookup v dict = some ov) :
    snippetOf dict v = ov.getD "" := by
  unfold snippetOf
  rw [h]
  cases ov <;> rfl

theorem snippetOf_eq_of_lookup_none (dict : List (String × Option String)) (v : String)
    (h : List.lookup v dict = none) : snippetOf dict v = "" := by
  unfold snippetOf
  rw [h]

/-- C3 counterexample: with duplicate video ids, the fourth item of the
quick search (outside the top 3) still receives the transcript fetched for
the first item, since transcripts are attached by id, so its
transcript_snippet is not empty. -/
theorem transcripts_top_n_counterexample :
    (search_and_transcribe true
        (.ok [⟨"a", "t", "c", "40", "", ""⟩, ⟨"b", "t", "c", "30", "", ""⟩,
          ⟨"c", "t", "c", "20", "", ""⟩, ⟨"a", "t", "c", "10", "", ""⟩])
        400 "t" "2024-01-01" "2024-01-31" "quick"
        (fun v => .ok (some ("T" ++ v)))).map (fun r => r.items.map Prod.snd) =
      .ok ["Ta", "Tb", "Tc", "Ta"] ∧ ("Ta" : String) ≠ "" :=
  ⟨rfl, by decide⟩

/-- C3 amended: provided the video ids of the search result are pairwise
distinct, transcript fetch attempts are made exactly for the first
transcriptLimit of depth items of the view-sorted list (3 for quick, 5 for
default, 8 for deep, default for unknown depths); every item outside that
top group keeps an empty transcript_snippet, and every item inside it
carries the fetched transcript text, or the empty string when none was
available. Without the distinctness hypothesis an item outside the top
group sharing its id with one inside receives that transcript too. -/
theorem transcripts_top_n (ok : Bool) (outcome : Except String (List RawVideo)) (now : Nat)
    (topic from_date to_date depth : String) (f : String → Except Unit (Option String))
    (sr : YTResult)
    (hs : search_youtube ok outcome now topic from_date to_date depth = .ok sr)
    (hnd : (sr.items.map YTItem.video_id).Nodup) :
    (transcriptLimit "quick" = 3 ∧ transcriptLimit "default" = 5 ∧
      transcriptLimit "deep" = 8 ∧
      ∀ dp : String, dp ≠ "quick" → dp ≠ "default" → dp ≠ "deep" → transcriptLimit dp = 5) ∧
    ∀ res : STResult,
      search_and_transcribe ok outcome now topic from_date to_date depth f = .ok res →
      res.items.map Prod.fst = sr.items ∧
      res.trace.filter isFetchEv =
        ((sr.items.take (transcriptLimit depth)).map
          (fun it => it.video_id)).map FEvent.fetchEv ∧
      (∀ j, transcriptLimit depth ≤ j → ∀ hj : j < res.items.length,
        (res.items.get ⟨j, hj⟩).2 = "") ∧
      (∀ j, j < transcriptLimit depth → ∀ hj : j < res.items.length,
        (res.items.get ⟨j, hj⟩).2 =
          (exceptVal f (res.items.get ⟨j, hj⟩).1.video_id).getD "") := by
  constructor
  · refine ⟨rfl, rfl, rfl, ?_⟩
    intro dp hq hd hdp
    simp [transcriptLimit, hq, hd, hdp]
  intro res hres
  unfold search_and_transcribe at hres
  rw [hs] at hres
  have hres2 : (if sr.items.isEmpty then (Except.ok ⟨[], sr.error, []⟩ : Except Unit STResult)
    else .ok ⟨sr.items.map (fun it => (it, snippetOf
          (fetch_transcripts_parallel f ((sr.items.take (transcriptLimit depth)).map
            (fun it => it.video_id))).1 it.video_id)),
        none,
        (fetch_transcripts_parallel f ((sr.items.take (transcriptLimit depth)).map
          (fun it => it.video_id))).2⟩) = .ok res := hres
  by_cases he : sr.items.isEmpty = true
  · rw [if_pos he] at hres2
    injection hres2 with h'
    have hsri : sr.items = [] := List.isEmpty_iff.mp he
    rw [← h']
    refine ⟨by simp [hsri], by simp [hsri], ?_, ?_⟩
    · intro j _ hj
      simp at hj
    · intro j _ hj
      simp at hj
  · rw [if_neg he] at hres2
    injection hres2 with h'
    rw [← h']
    have hlen : (sr.items.map (fun it => (it, snippetOf
        (fetch_transcripts_parallel f ((sr.items.take (transcriptLimit depth)).map
          (fun it => it.video_id))).1 it.video_id))).length = sr.items.length := by
      simp
    have hndsplit : ((sr.items.take (transcriptLimit depth)).map
        (fun it : YTItem => it.video_id)).Disjoint
        ((sr.items.drop (transcriptLimit depth)).map (fun it : YTItem => it.video_id)) := by
      have heq : sr.items.map (fun it : YTItem => it.video_id) =
          (sr.items.take (transcriptLimit depth)).map (fun it : YTItem => it.video_id) ++
          (sr.items.drop (transcriptLimit depth)).map (fun it : YTItem => it.video_id) := by
        rw [← List.map_append, List.take_append_drop]
      have hnd2 := hnd
      rw [heq] at hnd2
      exact (List.nodup_append.mp hnd2).2.2
    refine ⟨?_, ?_, ?_, ?_⟩
    · rw [List.map_map]
      have hcomp : (Prod.fst ∘ fun it : YTItem => (it, snippetOf
          (fetch_transcripts_parallel f ((sr.items.take (transcriptLimit depth)).map
            (fun it => it.video_id))).1 it.video_id)) = id := rfl
      rw [hcomp, List.map_id]
    · show (fetch_transcripts_parallel f ((sr.items.take (transcriptLimit depth)).map
        (fun it => it.video_id))).2.filter isFetchEv = _
      rw [ftp_trace_eq]
      exact intersperse_filter_fetch _
    · intro j hlim hj
      have hj' : j < sr.items.length := by
        rw [hlen] at hj
        exact hj
      have hget : (sr.items.map (fun it => (it, snippetOf
          (fetch_transcripts_parallel f ((sr.items.take (transcriptLimit depth)).map
            (fun it => it.video_id))).1 it.video_id))).get ⟨j, hj⟩ =
          (sr.items.get ⟨j, hj'⟩, snippetOf
            (fetch_transcripts_parallel f ((sr.items.take (transcriptLimit depth)).map
              (fun it => it.video_id))).1 (sr.items.get ⟨j, hj'⟩).video_id) := by
        simp [List.get_eq_getElem, List.getElem_map]
      rw [hget]
      have hjd : j - transcriptLimit depth < (sr.items.drop (transcriptLimit depth)).length := by
        simp
        omega
      have hmemdrop : (sr.items.get ⟨j, hj'⟩).video_id ∈
          (sr.items.drop (transcriptLimit depth)).map (fun it : YTItem => it.video_id) := by
        have hgd : (sr.items.drop (transcriptLimit depth)).get ⟨j - transcriptLimit depth, hjd⟩ =
            sr.items.get ⟨j, hj'⟩ := by
          simp only [List.get_eq_getElem, List.getElem_drop]
          congr 1
          omega
        rw [← hgd]
        exact List.mem_map_of_mem _ (List.get_mem _ _ _)
      have hnotmem : ¬ (sr.items.get ⟨j, hj'⟩).video_id ∈
          (sr.items.take (transcriptLimit depth)).map (fun it : YTItem => it.video_id) :=
        fun hmem => hndsplit hmem hmemdrop
      show snippetOf _ _ = ""
      apply snippetOf_eq_of_lookup_none
      rw [ftp_dict_eq]
      exact lookup_map_not_mem _ _ _ hnotmem
    · intro j hlim hj
      have hj' : j < sr.items.length := by
        rw [hlen] at hj
        exact hj
      have hget : (sr.items.map (fun it => (it, snippetOf
          (fetch_transcripts_parallel f ((sr.items.take (transcriptLimit depth)).map
            (fun it => it.video_id))).1 it.video_id))).get ⟨j, hj⟩ =
          (sr.items.get ⟨j, hj'⟩, snippetOf
            (fetch_transcripts_parallel f ((sr.items.take (transcriptLimit depth)).map
              (fun it => it.video_id))).1 (sr.items.get ⟨j, hj'⟩).video_id) := by
        simp [List.get_eq_getElem, List.getElem_map]
      rw [hget]
      have hjt : j < (sr.items.take (transcriptLimit depth)).length := by
        simp
        omega
      have hmemtake : (sr.items.get ⟨j, hj'⟩).video_id ∈
          (sr.items.take (transcriptLimit depth)).map (fun it : YTItem => it.video_id) := by
        have hgt : (sr.items.take (transcriptLimit depth)).get ⟨j, hjt⟩ =
            sr.items.get ⟨j, hj'⟩ := by
          simp only [List.get_eq_getElem, List.getElem_take]
        rw [← hgt]
        exact List.mem_map_of_mem _ (List.get_mem _ _ _)
      show snippetOf _ _ = _
      apply snippetOf_eq_of_lookup
      rw [ftp_dict_eq]
      exact lookup_map_mem _ _ _ hmemtake

/-- Closed instance of the C3 amended theorem: the transcript limits of the
three depth tiers and the default for an unknown depth. -/
theorem transcripts_top_n_witness :
    transcriptLimit "quick" = 3 ∧ transcriptLimit "weird" = 5 := by
  have h := transcripts_top_n true (.ok []) 400 "t" "2024-01-01" "2024-01-31" "quick"
    (fun _ => .ok none) ⟨[], none⟩ rfl (by simp)
  exact ⟨h.1.1, h.1.2.2.2 "weird" (by decide) (by decide) (by decide)⟩

/-- Closed instance of the C4 theorem: both degraded paths at concrete
inputs. -/
theorem search_youtube_degraded_witness :
    search_youtube false (.ok []) 400 "t" "2024-01-01" "2024-01-31" "quick" =
      .ok ⟨[], some "scrapetube not installed"⟩ ∧
    search_youtube true (.error "boom") 400 "t" "2024-01-01" "2024-01-31" "quick" =
      .ok ⟨[], some ("scrapetube error: " ++ "boom")⟩ :=
  ⟨(search_youtube_degraded false (.ok []) 400 "t" "2024-01-01" "2024-01-31" "quick").1 rfl,
   (search_youtube_degraded true (.error "boom") 400 "t" "2024-01-01" "2024-01-31"
      "quick").2 rfl "boom" rfl⟩
